import Mathlib

/-!
Verification of the Dais-SDK tool core: the execution dispatcher
(src/dais_sdk/tool/execute.py), the exception handler manager, the python
toolset (src/dais_sdk/tool/toolset/python_toolset.py), the streaming message
assembler and the type-to-schema compiler of the specification.

Python data that can flow through json.dumps and json.loads is embedded as
the inductive type PyValue (numbers are modelled as integers; floating point
is outside the embedding).  The serializer mirrors json.dumps with
ensure_ascii=False and the default separators (a comma-space between items,
a colon-space after keys); the parser is a standard JSON decoder used to
state round-trip properties, mirroring json.loads.
-/

/-- A Python value in the JSON-serializable fragment: None, bool, int,
str, list and dict (insertion-ordered key/value pairs). -/
inductive PyValue where
  | none
  | bool (b : Bool)
  | int (n : Int)
  | str (s : String)
  | list (xs : List PyValue)
  | dict (kvs : List (String × PyValue))

/-- Whether a value is a Python str (the case the result normalizer passes
through verbatim). -/
def PyValue.isStr : PyValue → Bool
  | .str _ => true
  | _ => false

/-- A lowercase hexadecimal digit character, as produced by the percent-04x
formatting json.dumps uses for control characters. -/
def hexChar (d : Nat) : Char :=
  if d < 10 then Char.ofNat (48 + d) else Char.ofNat (87 + d)

/-- Escape of one character inside a JSON string, mirroring the ESCAPE_DCT
table of json.encoder when ensure_ascii=False: backslash, double quote and
the named control characters get two-character escapes, all other control
characters below 0x20 get a lowercase four-digit unicode escape, and every
remaining character (non-ASCII included) is emitted literally. -/
def escChar (c : Char) : List Char :=
  if c = '\\' then ['\\', '\\']
  else if c = '"' then ['\\', '"']
  else if c = '\x08' then ['\\', 'b']
  else if c = '\x0c' then ['\\', 'f']
  else if c = '\n' then ['\\', 'n']
  else if c = '\r' then ['\\', 'r']
  else if c = '\t' then ['\\', 't']
  else if c.toNat < 32 then
    ['\\', 'u', '0', '0', hexChar (c.toNat / 16), hexChar (c.toNat % 16)]
  else [c]

/-- Escaped body of a JSON string: each character escaped in sequence. -/
def escBody : List Char → List Char
  | [] => []
  | c :: l => escChar c ++ escBody l

/-- A JSON string token: opening quote, escaped body, closing quote. -/
def quoteChars (s : String) : List Char :=
  '"' :: (escBody s.data ++ ['"'])

/-- Decimal digit characters of a positive natural number, most significant
first; structural on a fuel argument so that it reduces in the kernel. -/
def natDigitsFuel : Nat → Nat → List Char
  | 0, _ => []
  | f + 1, n => if n = 0 then [] else natDigitsFuel f (n / 10) ++ [Char.ofNat (48 + n % 10)]

/-- Decimal digit characters of a natural number (zero renders as the single
digit zero, as Python repr does). -/
def natChars (n : Nat) : List Char :=
  if n = 0 then ['0'] else natDigitsFuel (n + 1) n

/-- Decimal rendering of an integer: optional minus sign then digits,
matching the Python text representation json.dumps emits for int. -/
def intChars (i : Int) : List Char :=
  if i < 0 then '-' :: natChars i.natAbs else natChars i.natAbs

mutual
/-- Serialization of a value to JSON text, translated from json.dumps with
ensure_ascii=False and the default separators. -/
def dumpsChars : PyValue → List Char
  | .none => "null".data
  | .bool true => "true".data
  | .bool false => "false".data
  | .int i => intChars i
  | .str s => quoteChars s
  | .list xs => '[' :: (dumpsItems xs ++ [']'])
  | .dict kvs => '\x7b' :: (dumpsEntries kvs ++ ['\x7d'])
/-- Array items joined by the default item separator (comma and space). -/
def dumpsItems : List PyValue → List Char
  | [] => []
  | [x] => dumpsChars x
  | x :: y :: ys => dumpsChars x ++ ',' :: ' ' :: dumpsItems (y :: ys)
/-- Object entries: quoted key, colon-space, value, joined by comma-space. -/
def dumpsEntries : List (String × PyValue) → List Char
  | [] => []
  | [(k, v)] => quoteChars k ++ ':' :: ' ' :: dumpsChars v
  | (k, v) :: e :: es =>
      quoteChars k ++ ':' :: ' ' :: dumpsChars v ++ ',' :: ' ' :: dumpsEntries (e :: es)
end

/-- The JSON text of a value, as a string. -/
def jsonDumps (v : PyValue) : String := String.mk (dumpsChars v)

/-- Whether a character is JSON whitespace (space, tab, newline, carriage
return), as in json.decoder. -/
def wsChar (c : Char) : Bool :=
  c = ' ' || c = '\t' || c = '\n' || c = '\r'

/-- Drop leading JSON whitespace. -/
def skipWs : List Char → List Char
  | [] => []
  | c :: t => if wsChar c then skipWs t else c :: t

/-- Split a leading run of decimal digits from the input. -/
def readDigits : List Char → List Char × List Char
  | [] => ([], [])
  | c :: t => if c.isDigit then
      (fun p => (c :: p.1, p.2)) (readDigits t)
    else ([], c :: t)

/-- Value of a list of decimal digit characters, most significant first. -/
def digitsNat (ds : List Char) : Nat :=
  ds.foldl (fun a c => a * 10 + (c.toNat - 48)) 0

/-- Numeric value of one hexadecimal digit character, if it is one. -/
def hexVal (c : Char) : Option Nat :=
  if 48 ≤ c.toNat ∧ c.toNat ≤ 57 then some (c.toNat - 48)
  else if 97 ≤ c.toNat ∧ c.toNat ≤ 102 then some (c.toNat - 87)
  else if 65 ≤ c.toNat ∧ c.toNat ≤ 70 then some (c.toNat - 55)
  else none

/-- Short escapes a JSON string may contain after a backslash. -/
def unescChar : Char → Option Char
  | '"' => some '"'
  | '\\' => some '\\'
  | '/' => some '/'
  | 'b' => some '\x08'
  | 'f' => some '\x0c'
  | 'n' => some '\n'
  | 'r' => some '\r'
  | 't' => some '\t'
  | _ => Option.none

/-- Decoder of a JSON string body after the opening quote: literal
characters accumulate (reversed) until the closing quote; a backslash
introduces a short escape or a four-hex-digit unicode escape. -/
def parseStrBody (acc : List Char) : List Char → Option (String × List Char)
  | [] => Option.none
  | c :: r =>
    if c = '"' then some (String.mk acc.reverse, r)
    else if c = '\\' then
      match r with
      | [] => Option.none
      | e :: r1 =>
        if e = 'u' then
          match r1 with
          | h1 :: h2 :: h3 :: h4 :: r2 =>
            match hexVal h1, hexVal h2, hexVal h3, hexVal h4 with
            | some a, some b, some g, some d =>
                parseStrBody (Char.ofNat (((a * 16 + b) * 16 + g) * 16 + d) :: acc) r2
            | _, _, _, _ => Option.none
          | _ => Option.none
        else
          match unescChar e with
          | some d => parseStrBody (d :: acc) r1
          | Option.none => Option.none
    else parseStrBody (c :: acc) r

mutual
/-- Recursive-descent JSON value decoder (a standard JSON decoder over the
fragment the embedding covers; numbers are integers).  Structural on fuel so
it reduces in the kernel. -/
def parseValue : Nat → List Char → Option (PyValue × List Char)
  | 0, _ => Option.none
  | fuel + 1, cs =>
    match skipWs cs with
    | 'n' :: 'u' :: 'l' :: 'l' :: r => some (.none, r)
    | 't' :: 'r' :: 'u' :: 'e' :: r => some (.bool true, r)
    | 'f' :: 'a' :: 'l' :: 's' :: 'e' :: r => some (.bool false, r)
    | '"' :: r =>
      match parseStrBody [] r with
      | some (s, r1) => some (.str s, r1)
      | Option.none => Option.none
    | '[' :: r =>
      (match skipWs r with
       | [] => Option.none
       | c :: t =>
         if c = ']' then some (.list [], t)
         else match parseItems fuel (c :: t) with
              | some (vs, r1) => some (.list vs, r1)
              | Option.none => Option.none)
    | '\x7b' :: r =>
      (match skipWs r with
       | [] => Option.none
       | c :: t =>
         if c = '\x7d' then some (.dict [], t)
         else match parseEntries fuel (c :: t) with
              | some (kvs, r1) => some (.dict kvs, r1)
              | Option.none => Option.none)
    | '-' :: r =>
      (match readDigits r with
       | ([], _) => Option.none
       | (ds, r1) => some (.int (-(digitsNat ds : Int)), r1))
    | c :: r =>
      if c.isDigit then
        (match readDigits (c :: r) with
         | (ds, r1) => some (.int (digitsNat ds : Int), r1))
      else Option.none
    | [] => Option.none
/-- Decoder of one-or-more comma-separated array items up to the closing
bracket (the empty array is handled by the value decoder). -/
def parseItems : Nat → List Char → Option (List PyValue × List Char)
  | 0, _ => Option.none
  | fuel + 1, cs =>
    match parseValue fuel cs with
    | Option.none => Option.none
    | some (v, r) =>
      match skipWs r with
      | ',' :: r1 =>
        (match parseItems fuel r1 with
         | some (vs, r2) => some (v :: vs, r2)
         | Option.none => Option.none)
      | ']' :: r1 => some ([v], r1)
      | _ => Option.none
/-- Decoder of one-or-more comma-separated object entries up to the closing
brace (the empty object is handled by the value decoder). -/
def parseEntries : Nat → List Char → Option (List (String × PyValue) × List Char)
  | 0, _ => Option.none
  | fuel + 1, cs =>
    match skipWs cs with
    | '"' :: r =>
      (match parseStrBody [] r with
       | Option.none => Option.none
       | some (k, r1) =>
         match skipWs r1 with
         | ':' :: r2 =>
           (match parseValue fuel r2 with
            | Option.none => Option.none
            | some (v, r3) =>
              match skipWs r3 with
              | ',' :: r4 =>
                (match parseEntries fuel r4 with
                 | some (kvs, r5) => some ((k, v) :: kvs, r5)
                 | Option.none => Option.none)
              | '\x7d' :: r4 => some ([(k, v)], r4)
              | _ => Option.none)
         | _ => Option.none)
    | _ => Option.none
end

/-- Decoding of a whole JSON document, mirroring json.loads: one value,
then nothing but whitespace. -/
def jsonLoads (s : String) : Option PyValue :=
  match parseValue (s.data.length + 1) s.data with
  | some (v, r) => if skipWs r = [] then some v else Option.none
  | Option.none => Option.none

/-!
Execution dispatcher: embedding of src/dais_sdk/tool/execute.py.

A Python callable registered as a tool is embedded as a record carrying its
reflective signature (identifier, docstring, keyword parameters) and a body
function; invoking it with keyword arguments first performs the Python
call-binding check (every required parameter supplied, no unexpected
keyword), raising TypeError otherwise, then runs the body, which may itself
raise.  Exceptions are embedded as an error type returned through Except.
-/

/-- A raised Python exception as observed at the dispatcher boundary.  The
first three constructors are errors the embedded code actually produces;
the last two are the wrapper classes of src/dais_sdk/types/exceptions.py,
which exist in the taxonomy but are never constructed by the dispatcher. -/
inductive PyError where
  | jsonDecodeError (text : String)
  | typeError (description : String)
  | userRaised (description : String)
  | toolExecutionError (toolRef : String) (rawArguments : String) (cause : String)
  | toolArgumentDecodeError (toolName : String) (rawArguments : String) (cause : String)
deriving DecidableEq

/-- Whether an error is the ToolExecutionError wrapper. -/
def PyError.isToolExecutionError : PyError → Bool
  | .toolExecutionError _ _ _ => true
  | _ => false

/-- Whether an error is the ToolArgumentDecodeError wrapper. -/
def PyError.isToolArgumentDecodeError : PyError → Bool
  | .toolArgumentDecodeError _ _ _ => true
  | _ => false

/-- The kind of a Python callable parameter: a normal keyword-bindable
parameter, the implicit receiver of a bound method, or a variadic
catch-all (star-args or double-star-kwargs). -/
inductive ParamKind where
  | normal
  | selfLike
  | varArgs
  | varKwArgs
deriving DecidableEq

/-- A tool callable as the dispatcher sees it: reflective signature plus a
body.  requiredNames lists the keyword parameters without defaults,
optionalNames the ones with defaults; the body receives the keyword
arguments and either returns a value or raises. -/
structure PyToolFn where
  fnIdent : String
  doc : Option String
  requiredNames : List String
  optionalNames : List String
  body : List (String × PyValue) → Except PyError PyValue

/-- Python keyword-call semantics for a tool body: binding fails with
TypeError when a required parameter is missing or an unexpected keyword is
passed; otherwise the body runs (and may raise on its own). -/
def callKw (fn : PyToolFn) (args : List (String × PyValue)) : Except PyError PyValue :=
  if fn.requiredNames.all (fun p => (args.map Prod.fst).contains p)
     && (args.map Prod.fst).all
          (fun k => fn.requiredNames.contains k || fn.optionalNames.contains k)
  then fn.body args
  else .error (.typeError (fn.fnIdent ++ "() got missing or unexpected keyword arguments"))

/-- Raw arguments as they reach the dispatcher: JSON text or an
already-parsed mapping. -/
inductive RawArgs where
  | text (s : String)
  | mapping (kvs : List (String × PyValue))

/-- Translation of the private arguments normalizer of execute.py: text is
decoded by json.loads (the raised JSONDecodeError propagating as is — the
cast to dict performs no runtime check), a mapping passes through
unchanged. -/
def argumentsNormalizer : RawArgs → Except PyError PyValue
  | .text s =>
    (match jsonLoads s with
     | some v => .ok v
     | Option.none => .error (.jsonDecodeError s))
  | .mapping kvs => .ok (.dict kvs)

/-- Translation of the private result normalizer of execute.py: a str
result passes through verbatim, any other value is serialized by
json.dumps with ensure_ascii=False. -/
def resultNormalizer : PyValue → String
  | .str s => s
  | v => jsonDumps v

/-- Translation of execute_tool_sync for a plain callable: normalize the
arguments, invoke the callable with them as keyword arguments (a value that
is not a mapping fails the double-star expansion with TypeError), and
normalize the result.  No exception is caught or wrapped on this path. -/
def execute_tool_sync (tool : PyToolFn) (arguments : RawArgs) : Except PyError String :=
  match argumentsNormalizer arguments with
  | .error e => .error e
  | .ok (.dict kvs) =>
    (match callKw tool kvs with
     | .error e => .error e
     | .ok result => .ok (resultNormalizer result))
  | .ok _ => .error (.typeError "argument after double-star must be a mapping")

/-- Translation of the suspending form execute_tool: identical to the
blocking form except for awaiting the body, which the embedding cannot
observe. -/
def execute_tool (tool : PyToolFn) (arguments : RawArgs) : Except PyError String :=
  match argumentsNormalizer arguments with
  | .error e => .error e
  | .ok (.dict kvs) =>
    (match callKw tool kvs with
     | .error e => .error e
     | .ok result => .ok (resultNormalizer result))
  | .ok _ => .error (.typeError "argument after double-star must be a mapping")

/-!
Exception handler manager: embedding of ToolExceptionHandlerManager from
src/dais_sdk/tool/execute.py.  Python looks handlers up by the exact
concrete class of the exception instance — the embedding carries that class
as an enumerated kind on each instance.
-/

/-- The concrete class of an LlmToolException instance: the root class
itself or one of its three subclasses. -/
inductive ToolExcKind where
  | llmToolException
  | toolDoesNotExist
  | toolArgumentDecode
  | toolExecution
deriving DecidableEq

/-- The Python class name of an exception kind (what type-of-e dot name
evaluates to in the fallback message). -/
def kindName : ToolExcKind → String
  | .llmToolException => "LlmToolException"
  | .toolDoesNotExist => "ToolDoesNotExistError"
  | .toolArgumentDecode => "ToolArgumentDecodeError"
  | .toolExecution => "ToolExecutionError"

/-- An LlmToolException instance: its exact concrete class and its str()
rendering. -/
structure ToolExc where
  kind : ToolExcKind
  message : String

/-- Exact-key lookup in an association list, mirroring dict.get. -/
def findKey {α : Type} : List (ToolExcKind × α) → ToolExcKind → Option α
  | [], _ => Option.none
  | (k1, v) :: t, k => if k1 = k then some v else findKey t k

/-- Exact-key insertion-or-replacement in an association list, mirroring
dict item assignment. -/
def setKey {α : Type} : List (ToolExcKind × α) → ToolExcKind → α → List (ToolExcKind × α)
  | [], k, v => [(k, v)]
  | (k1, v1) :: t, k, v => if k1 = k then (k, v) :: t else (k1, v1) :: setKey t k v

/-- The handler manager: a mapping from exact exception class to a
message-producing handler. -/
structure ToolExceptionHandlerManager where
  handlers : List (ToolExcKind × (ToolExc → String))

/-- A freshly constructed manager with no registered handler. -/
def emptyManager : ToolExceptionHandlerManager := ⟨[]⟩

/-- Translation of set_handler: register (or replace) the handler for an
exact exception class. -/
def setHandler (m : ToolExceptionHandlerManager) (k : ToolExcKind)
    (h : ToolExc → String) : ToolExceptionHandlerManager :=
  ⟨setKey m.handlers k h⟩

/-- Translation of get_handler: dict.get on the exact class. -/
def getHandler (m : ToolExceptionHandlerManager) (k : ToolExcKind) :
    Option (ToolExc → String) :=
  findKey m.handlers k

/-- The fallback text handle returns for an unregistered exception class
(the logger warning is not observable in the embedding). -/
def unhandledMessage (e : ToolExc) : String :=
  "Unhandled tool exception | " ++ kindName e.kind ++ ": " ++ e.message

/-- Translation of handle: look the handler up by the exact concrete class
of the instance; fall back to the generic message when none is registered.
The function is total — this path never re-raises. -/
def handle (m : ToolExceptionHandlerManager) (e : ToolExc) : String :=
  match getHandler m e.kind with
  | Option.none => unhandledMessage e
  | some h => h e

/-!
Streaming message assembler.  The collector class itself is not part of the
provided sources (only its fragment type ToolCallChunk, in
src/liteai_sdk/types/message.py, is); its transition function is modelled
from the specification, section 4.5.
-/

/-- Translation of the ToolCallChunk dataclass of
src/liteai_sdk/types/message.py: optional id and name, an arguments chunk,
and the index keying the logical call. -/
structure ToolCallChunk where
  id : Option String
  name : Option String
  arguments : String
  index : Int

/-- Token usage snapshot carried by a usage fragment.  Modelled from the
spec: the upstream source reports usage as a running total. -/
structure UsageSnapshot where
  promptTokens : Nat
  completionTokens : Nat

/-- Modelled from the spec: the MessageFragment variants the assembler
consumes (text delta, reasoning delta, tool-call argument delta, usage
delta, terminal marker). -/
inductive MessageFragment where
  | textDelta (content : String)
  | reasoningDelta (content : String)
  | toolCallDelta (chunk : ToolCallChunk)
  | usageDelta (u : UsageSnapshot)
  | terminal

/-- The tool-call chunk of a fragment, when it is one. -/
def chunkOf : MessageFragment → Option ToolCallChunk
  | .toolCallDelta c => some c
  | _ => Option.none

/-- One accumulating tool-call entry of the assembler, keyed by index. -/
structure ToolCallAccum where
  index : Int
  id : Option String
  name : Option String
  argumentsBuf : String

/-- The update applied to the entry whose index matches an incoming chunk:
append the chunk text to the argument buffer, keep already-set id and name
(a null or absent field never erases a set one). -/
def updAccum (a : ToolCallAccum) (c : ToolCallChunk) : ToolCallAccum :=
  ⟨a.index,
   (match a.id with | some x => some x | Option.none => c.id),
   (match a.name with | some x => some x | Option.none => c.name),
   a.argumentsBuf ++ c.arguments⟩

/-- Modelled from the spec: merging one tool-call argument delta into the
entry list — look up or create the entry keyed by index, append the chunk
to its argument buffer, and set id and name only if not already set (never
overwriting previously set values with null or absent ones); entries stay
in first-seen order of index. -/
def mergeChunk : List ToolCallAccum → ToolCallChunk → List ToolCallAccum
  | [], c => [⟨c.index, c.id, c.name, c.arguments⟩]
  | a :: rest, c =>
    if a.index = c.index then updAccum a c :: rest
    else a :: mergeChunk rest c

/-- The assembler state while open: text buffer, reasoning buffer,
tool-call entries and latest usage snapshot. -/
structure CollectorState where
  textBuf : String
  reasoningBuf : String
  toolCalls : List ToolCallAccum
  usage : Option UsageSnapshot

/-- The state of a freshly constructed assembler. -/
def initCollector : CollectorState := ⟨"", "", [], Option.none⟩

/-- Modelled from the spec: the collect transition — text and reasoning
deltas append to their buffers, a tool-call delta merges into the keyed
entries, a usage delta replaces the snapshot, the terminal marker changes
nothing. -/
def collect (s : CollectorState) (f : MessageFragment) : CollectorState :=
  match f with
  | .textDelta t => { s with textBuf := s.textBuf ++ t }
  | .reasoningDelta t => { s with reasoningBuf := s.reasoningBuf ++ t }
  | .toolCallDelta c => { s with toolCalls := mergeChunk s.toolCalls c }
  | .usageDelta u => { s with usage := some u }
  | .terminal => s

/-- Collecting a whole fragment sequence in arrival order. -/
def collectAll (fs : List MessageFragment) : CollectorState :=
  fs.foldl collect initCollector

/-- Declarative reading of a fragment sequence: the concatenation, in
arrival order, of every argument chunk carried for a given index. -/
def argsJoined (fs : List MessageFragment) (i : Int) : String :=
  String.join (fs.filterMap (fun f =>
    match chunkOf f with
    | some c => if c.index = i then some c.arguments else Option.none
    | Option.none => Option.none))

/-- Declarative reading of a fragment sequence: the field selected by g of
the first fragment of the given index that carries it. -/
def firstField (fs : List MessageFragment) (i : Int)
    (g : ToolCallChunk → Option String) : Option String :=
  fs.findSome? (fun f =>
    match chunkOf f with
    | some c => if c.index = i then g c else Option.none
    | Option.none => Option.none)

/-- Whether a fragment is a tool-call delta for the given index. -/
def hasIdx (i : Int) (f : MessageFragment) : Bool :=
  match chunkOf f with
  | some c => c.index = i
  | Option.none => false

/-- Indices of tool-call deltas in first-seen order, continuing from an
accumulator. -/
def seenFrom (acc : List Int) : List MessageFragment → List Int
  | [] => acc
  | f :: fs =>
    seenFrom
      (match chunkOf f with
       | some c => if acc.contains c.index then acc else acc ++ [c.index]
       | Option.none => acc) fs

/-- Indices of tool-call deltas in first-seen order. -/
def seenIndices (fs : List MessageFragment) : List Int := seenFrom [] fs

/-- The entry the specification predicts for one index: id and name from
the first fragment of that index carrying them, arguments the ordered
concatenation of its chunks. -/
def specEntry (fs : List MessageFragment) (i : Int) : ToolCallAccum :=
  ⟨i, firstField fs i (fun c => c.id), firstField fs i (fun c => c.name), argsJoined fs i⟩

/-!
Type-to-schema compiler and callable introspection.  The compiler function
_python_type_to_json_schema and the tool-definition generator live in
dais_sdk/tool/prepare.py, which is not among the provided sources (only its
tests are); they are modelled from the specification, sections 4.1 and 4.2.
-/

/-- A literal member value of a fixed-choice enumeration: bool, int, float
(exact rational stand-in) or str. -/
inductive PyLit where
  | pbool (b : Bool)
  | pint (n : Int)
  | pfloat (q : Rat)
  | pstr (s : String)
deriving DecidableEq

/-- Whether an enumeration member is a Python bool. -/
def PyLit.isBoolLit : PyLit → Bool
  | .pbool _ => true
  | _ => false

/-- Whether an enumeration member is a Python int. -/
def PyLit.isIntLit : PyLit → Bool
  | .pint _ => true
  | _ => false

/-- Whether an enumeration member is a Python float. -/
def PyLit.isFloatLit : PyLit → Bool
  | .pfloat _ => true
  | _ => false

/-- Whether an enumeration member is a Python str. -/
def PyLit.isStrLit : PyLit → Bool
  | .pstr _ => true
  | _ => false

/-- A runtime type descriptor as the compiler receives it: primitives,
the absence marker (NoneType), binary and date-time kinds, containers,
unions, fixed-choice enumerations, records and annotated types. -/
inductive PyType where
  | tstr
  | tint
  | tfloat
  | tbool
  | tany
  | tnone
  | tbytes
  | tdatetime
  | tdate
  | ttime
  | tlist (elem : Option PyType)
  | tset (elem : Option PyType)
  | ttupleFix (elems : List PyType)
  | ttupleVar (elem : PyType)
  | tdict (valueTy : Option PyType)
  | tunion (alts : List PyType)
  | tliteral (members : List PyLit)
  | tenum (members : List PyLit)
  | trecord (fields : List (String × PyType × Bool))
  | tannotated (base : PyType) (tag : Option String)

/-- A compiled schema node, as a JSON-representable value (strings,
integers, booleans, rationals standing in for floats, arrays and
string-keyed objects). -/
inductive SValue where
  | s (v : String)
  | i (n : Int)
  | b (v : Bool)
  | q (v : Rat)
  | arr (xs : List SValue)
  | obj (kvs : List (String × SValue))

/-- The schema value of one enumeration member. -/
def litToS : PyLit → SValue
  | .pbool b => .b b
  | .pint n => .i n
  | .pfloat v => .q v
  | .pstr v => .s v

/-- Modelled from the spec: the base type of a fixed-choice enumeration,
inferred from the member values with bool-int-float-str precedence — an
all-bool set is boolean, an all-integer set is integer, a float among
numbers makes it number, any non-numeric member makes it string. -/
def inferEnumBase (ms : List PyLit) : String :=
  if ms.all PyLit.isBoolLit then "boolean"
  else if ms.all (fun m => m.isBoolLit || m.isIntLit) then "integer"
  else if ms.all (fun m => m.isBoolLit || m.isIntLit || m.isFloatLit) then "number"
  else "string"

/-- Schema of a fixed-choice enumeration: inferred base type plus the
member list in declaration order. -/
def enumSchema (ms : List PyLit) : SValue :=
  .obj [("type", .s (inferEnumBase ms)), ("enum", .arr (ms.map litToS))]

/-- The permissive fallback schema for unconstrained or unknown types. -/
def strFallback : SValue := .obj [("type", .s "string")]

mutual
/-- Modelled from the spec: the type-to-schema compiler
(_python_type_to_json_schema of dais_sdk/tool/prepare.py, absent from the
provided sources) — the fixed mapping of section 4.1, reproduced rule by
rule; union alternatives are compiled left to right with the absence
marker filtered out. -/
def compileType : PyType → SValue
  | .tstr => .obj [("type", .s "string")]
  | .tint => .obj [("type", .s "integer")]
  | .tfloat => .obj [("type", .s "number")]
  | .tbool => .obj [("type", .s "boolean")]
  | .tany => strFallback
  | .tnone => strFallback
  | .tbytes => .obj [("type", .s "string"), ("contentEncoding", .s "base64")]
  | .tdatetime => .obj [("type", .s "string"), ("format", .s "date-time")]
  | .tdate => .obj [("type", .s "string"), ("format", .s "date")]
  | .ttime => .obj [("type", .s "string"), ("format", .s "time")]
  | .tlist e =>
    .obj [("type", .s "array"),
          ("items", match e with | some t => compileType t | Option.none => strFallback)]
  | .tset e =>
    .obj [("type", .s "array"),
          ("items", match e with | some t => compileType t | Option.none => strFallback),
          ("uniqueItems", .b true)]
  | .ttupleFix ts =>
    .obj [("type", .s "array"),
          ("prefixItems", .arr (compileEach ts)),
          ("minItems", .i ts.length),
          ("maxItems", .i ts.length)]
  | .ttupleVar t => .obj [("type", .s "array"), ("items", compileType t)]
  | .tdict v =>
    .obj [("type", .s "object"),
          ("additionalProperties",
           match v with | some t => compileType t | Option.none => strFallback)]
  | .tunion alts =>
    (match compileAlts alts with
     | [] => strFallback
     | [sv] => sv
     | svs => .obj [("oneOf", .arr svs)])
  | .tliteral ms => enumSchema ms
  | .tenum ms => enumSchema ms
  | .trecord fields =>
    .obj [("type", .s "object"),
          ("properties", .obj (compileFields fields)),
          ("required",
           .arr (fields.filterMap (fun f => if f.2.2 then Option.none else some (.s f.1))))]
  | .tannotated t tag =>
    (match tag with
     | some d =>
       (match compileType t with
        | .obj kvs => .obj (kvs ++ [("description", .s d)])
        | sv => sv)
     | Option.none => compileType t)
/-- Compiled schemas of the non-null alternatives of a union, in order. -/
def compileAlts : List PyType → List SValue
  | [] => []
  | t :: ts =>
    (match t with
     | .tnone => compileAlts ts
     | _ => compileType t :: compileAlts ts)
/-- Compiled schemas of a list of types, in order. -/
def compileEach : List PyType → List SValue
  | [] => []
  | t :: ts => compileType t :: compileEach ts
/-- Compiled schemas of record fields, in declaration order. -/
def compileFields : List (String × PyType × Bool) → List (String × SValue)
  | [] => []
  | f :: fs => (f.1, compileType f.2.1) :: compileFields fs
end

/-!
Callable introspection and the python toolset.  The decorator python_tool
and PythonToolset.get_tools are translated from
src/dais_sdk/tool/toolset/python_toolset.py; the tool-definition generator
and the namespacing helper of the Toolset base class are modelled from the
specification (sections 4.2 and 4.3) since dais_sdk/tool/prepare.py and the
Toolset base module are not among the provided sources.
-/

/-- One reflective parameter of a callable: name, declared type, whether a
default exists, and its kind (normal, implicit receiver, variadic). -/
structure PyParam where
  name : String
  annot : PyType
  hasDefault : Bool
  kind : ParamKind

/-- A Python callable with its reflective metadata: identifier, docstring,
parameter list, the attributes the tool decorator manages, and a body. -/
structure PyFunc where
  fnIdent : String
  doc : Option String
  params : List PyParam
  isToolFlag : Bool
  toolDefaults : List (String × PyLit)
  body : List (String × PyValue) → Except PyError PyValue

/-- Translation of the python_tool decorator applied without validation
(validate=False, the default): set the tool flag and the stored defaults on
the callable and return the very same callable. -/
def python_tool (f : PyFunc) (defaults : List (String × PyLit)) : PyFunc :=
  { f with isToolFlag := true, toolDefaults := defaults }

/-- Parameters a tool schema includes: synthetic parameters (the implicit
receiver and variadic catch-alls) are skipped. -/
def includedParams (f : PyFunc) : List PyParam :=
  f.params.filter (fun p => decide (p.kind = ParamKind.normal))

/-- The printable name of a type descriptor, used by the generated
fallback parameter description. -/
def typeNameOf : PyType → String
  | .tstr => "str"
  | .tint => "int"
  | .tfloat => "float"
  | .tbool => "bool"
  | .tany => "Any"
  | .tnone => "NoneType"
  | .tbytes => "bytes"
  | .tdatetime => "datetime"
  | .tdate => "date"
  | .ttime => "time"
  | .tlist _ => "list"
  | .tset _ => "set"
  | .ttupleFix _ => "tuple"
  | .ttupleVar _ => "tuple"
  | .tdict _ => "dict"
  | .tunion _ => "Union"
  | .tliteral _ => "Literal"
  | .tenum _ => "Enum"
  | .trecord _ => "object"
  | .tannotated t _ => typeNameOf t

/-- Modelled from the spec: a parameter description — the annotation tag
when present and a string, else a generated phrase naming the parameter and
its inferred type. -/
def paramDescription (p : PyParam) : String :=
  match p.annot with
  | .tannotated _ (some d) => d
  | _ => "Parameter " ++ p.name ++ " of type " ++ typeNameOf p.annot

/-- Modelled from the spec: the parameters schema of a callable — always an
object schema with one property per included parameter and the defaultless
ones required, in declaration order. -/
def paramsSchema (f : PyFunc) : SValue :=
  .obj [("type", .s "object"),
        ("properties",
         .obj ((includedParams f).map (fun p =>
           (p.name,
            match compileType p.annot with
            | .obj kvs => SValue.obj (kvs ++ [("description", .s (paramDescription p))])
            | sv => sv)))),
        ("required",
         .arr ((includedParams f).filterMap (fun p =>
           if p.hasDefault then Option.none else some (.s p.name))))]

/-- Documentation text normalization: each line stripped of leading and
trailing whitespace, then rejoined. -/
def collapseDoc (d : String) : String :=
  String.intercalate "\n" ((d.splitOn "\n").map String.trim)

/-- A structured tool definition: name, description and parameters
schema. -/
structure ToolDefinition where
  name : String
  description : String
  parameters : SValue

/-- Modelled from the spec: the tool-definition generator
(generate_tool_definition_from_callable of dais_sdk/tool/prepare.py, absent
from the provided sources) — introspection fails when the callable has no
documentation, else it yields the identifier, the collapsed docstring and
the parameters schema.  It reads only the reflective signature, never the
decorator-managed attributes. -/
def generate_tool_definition (f : PyFunc) : Except String ToolDefinition :=
  match f.doc with
  | Option.none => .error ("missing docstring on callable " ++ f.fnIdent)
  | some d => .ok ⟨f.fnIdent, collapseDoc d, paramsSchema f⟩

/-- The ToolDef record get_tools produces per member tool: name,
description, parameters schema, static defaults and the bound body. -/
structure ToolDefRecord where
  name : String
  description : String
  parameters : SValue
  defaults : List (String × PyLit)
  execute : List (String × PyValue) → Except PyError PyValue

/-- Modelled from the spec and the toolset tests: ToolDef.from_tool_fn
(absent from the provided sources) — like the generator but tolerating a
missing docstring, which becomes the empty description. -/
def fromToolFn (f : PyFunc) : ToolDefRecord :=
  ⟨f.fnIdent, collapseDoc ((f.doc).getD ""), paramsSchema f, [], f.body⟩

/-- A PythonToolset instance: its class name and its bound methods as the
reflective member enumeration yields them. -/
structure PythonToolset where
  clsName : String
  methods : List PyFunc

/-- Modelled from the spec: the namespacing helper of the Toolset base
class — the group name joined to the tool name by a double underscore. -/
def formatToolName (ts : PythonToolset) (toolName : String) : String :=
  ts.clsName ++ "__" ++ toolName

/-- Translation of PythonToolset.get_tools: iterate the bound methods,
keep the tool-flagged ones, build each ToolDef, rewrite its name with the
namespace unless unnamespaced output was requested, and attach the stored
defaults. -/
def get_tools (ts : PythonToolset) (namespacedToolName : Bool) : List ToolDefRecord :=
  ts.methods.foldl
    (fun result m =>
      if m.isToolFlag then
        result ++ [{ fromToolFn m with
                     name := if namespacedToolName then formatToolName ts (fromToolFn m).name
                             else (fromToolFn m).name,
                     defaults := m.toolDefaults }]
      else result)
    []

/-!
Concrete tools mirroring the fixtures of tests/test_tool_execution.py,
used to evaluate the dispatcher at specific inputs.
-/

/-- The requires_arg fixture: one required keyword parameter. -/
def requiresArgTool : PyToolFn :=
  ⟨"requires_arg", some "Requires argument", ["required"], [],
   fun kvs => .ok ((kvs.lookup "required").getD PyValue.none)⟩

/-- The dummy fixture: one required int parameter, returned unchanged. -/
def dummyTool : PyToolFn :=
  ⟨"dummy", some "Dummy function", ["x"], [],
   fun kvs => .ok ((kvs.lookup "x").getD PyValue.none)⟩

/-- A tool whose body always raises. -/
def raisingTool : PyToolFn :=
  ⟨"boom_tool", some "Always raises", [], [],
   fun _ => .error (.userRaised "boom")⟩

/-- The empty JSON object text. -/
def emptyObjText : String := "\x7b\x7d"

/-- Whether an input cannot extend a decimal digit run: empty, or headed by
a non-digit (every JSON delimiter qualifies). -/
def digitSafe : List Char → Bool
  | [] => true
  | c :: _ => !c.isDigit

-- ================= end of definitions; theorems follow =================

theorem findKey_setKey {α : Type} (l : List (ToolExcKind × α)) (k : ToolExcKind) (v : α) :
    findKey (setKey l k v) k = some v := by
  induction l with
  | nil => simp [setKey, findKey]
  | cons p t ih =>
    obtain ⟨k1, v1⟩ := p
    by_cases h : k1 = k
    · simp [setKey, findKey, h]
    · simp [setKey, findKey, h, ih]

/-- C5 counterexample: the fallback message the handler manager returns for
an unregistered exception kind is not of the claimed format
"unhandled tool exception: kind: message" — the code separates the phrase
from the kind with a pipe, with a capitalized phrase. -/
theorem unhandled_fallback_format_cex :
    handle emptyManager ⟨.toolDoesNotExist, "boom"⟩
      = "Unhandled tool exception | ToolDoesNotExistError: boom"
    ∧ handle emptyManager ⟨.toolDoesNotExist, "boom"⟩
      ≠ "unhandled tool exception: ToolDoesNotExistError: boom" :=
  ⟨by decide, by decide⟩

/-- C5 (amended): for every exception kind with no registered handler, the
handler manager returns the string "Unhandled tool exception | kind:
message"; in particular the result contains the literal phrase "Unhandled
tool exception" and the kind name, and this path is a total function (it
never re-raises). -/
theorem unhandled_fallback_message :
    ∀ (m : ToolExceptionHandlerManager) (e : ToolExc),
      getHandler m e.kind = Option.none →
      handle m e = "Unhandled tool exception | " ++ kindName e.kind ++ ": " ++ e.message
      ∧ List.IsInfix "Unhandled tool exception".data (handle m e).data
      ∧ List.IsInfix (kindName e.kind).data (handle m e).data := by
  intro m e h
  have hh : handle m e
      = "Unhandled tool exception | " ++ kindName e.kind ++ ": " ++ e.message := by
    simp [handle, h, unhandledMessage]
  refine ⟨hh, ?_, ?_⟩
  · rw [hh]
    refine ⟨[], (" | " ++ kindName e.kind ++ ": " ++ e.message).data, ?_⟩
    have hlit : "Unhandled tool exception".data ++ " | ".data
        = "Unhandled tool exception | ".data := by decide
    show [] ++ "Unhandled tool exception".data
        ++ (((" | ".data ++ (kindName e.kind).data) ++ ": ".data) ++ e.message.data)
      = (("Unhandled tool exception | ".data ++ (kindName e.kind).data) ++ ": ".data)
        ++ e.message.data
    rw [List.nil_append, ← List.append_assoc, ← List.append_assoc, ← List.append_assoc, hlit]
  · rw [hh]
    refine ⟨"Unhandled tool exception | ".data, ": ".data ++ e.message.data, ?_⟩
    show _ = (("Unhandled tool exception | ".data ++ (kindName e.kind).data) ++ ": ".data)
        ++ e.message.data
    simp [List.append_assoc]

/-- C5 witness: the fallback evaluated at a concrete unregistered kind. -/
theorem unhandled_fallback_message_witness :
    handle emptyManager ⟨.toolDoesNotExist, "unknown_tool"⟩
      = "Unhandled tool exception | ToolDoesNotExistError: unknown_tool" :=
  ((unhandled_fallback_message emptyManager ⟨.toolDoesNotExist, "unknown_tool"⟩ rfl).1).trans
    (by decide)

/-- C10: handler lookup is by exact concrete exception class — registering
a handler for a class dispatches instances of exactly that class to it, and
a handler registered for the root class LlmToolException is never invoked
for an instance of a different concrete class, which receives the
unregistered-kind fallback instead. -/
theorem handler_lookup_exact_class :
    (∀ (m : ToolExceptionHandlerManager) (k : ToolExcKind) (h : ToolExc → String) (e : ToolExc),
       e.kind = k → handle (setHandler m k h) e = h e)
    ∧ (∀ (h : ToolExc → String) (e : ToolExc),
       e.kind ≠ .llmToolException →
       handle (setHandler emptyManager .llmToolException h) e = unhandledMessage e) := by
  constructor
  · intro m k h e hk
    subst hk
    simp [handle, getHandler, setHandler, findKey_setKey]
  · intro h e hk
    have : findKey [(ToolExcKind.llmToolException, h)] e.kind = Option.none := by
      simp [findKey]
      exact fun hc => hk hc.symm
    simp [handle, getHandler, setHandler, emptyManager, setKey, this]

/-- C10 witness: exact dispatch and base-class non-dispatch at concrete
kinds. -/
theorem handler_lookup_exact_class_witness :
    handle (setHandler emptyManager .toolDoesNotExist (fun _ => "got it"))
      ⟨.toolDoesNotExist, "m"⟩ = "got it"
    ∧ handle (setHandler emptyManager .llmToolException (fun _ => "base"))
      ⟨.toolExecution, "m"⟩ = "Unhandled tool exception | ToolExecutionError: m" :=
  ⟨handler_lookup_exact_class.1 emptyManager .toolDoesNotExist (fun _ => "got it")
     ⟨.toolDoesNotExist, "m"⟩ rfl,
   (handler_lookup_exact_class.2 (fun _ => "base") ⟨.toolExecution, "m"⟩ (by decide)).trans
     (by decide)⟩

/-- C3 counterexample: a tool invoked with a missing required argument
makes execute_tool_sync and execute_tool fail with the raw TypeError of the
binding, not with a ToolExecutionError wrapper — so the original exception
does propagate unwrapped out of the dispatcher. -/
theorem execution_error_not_wrapped_cex :
    execute_tool_sync requiresArgTool (.text emptyObjText)
      = .error (.typeError "requires_arg() got missing or unexpected keyword arguments")
    ∧ execute_tool requiresArgTool (.text emptyObjText)
      = .error (.typeError "requires_arg() got missing or unexpected keyword arguments")
    ∧ (PyError.typeError
        "requires_arg() got missing or unexpected keyword arguments").isToolExecutionError
      = false :=
  ⟨rfl, rfl, rfl⟩

/-- C3 (amended): every exception raised during invocation — the binding
TypeError for a missing required argument as well as any error raised
inside the callable — propagates out of execute_tool_sync and execute_tool
unchanged and unwrapped; the dispatcher constructs no ToolExecutionError. -/
theorem execution_error_propagates_raw :
    ∀ (tool : PyToolFn) (a : RawArgs) (kvs : List (String × PyValue)) (e : PyError),
      argumentsNormalizer a = .ok (.dict kvs) →
      callKw tool kvs = .error e →
      execute_tool_sync tool a = .error e ∧ execute_tool tool a = .error e := by
  intro tool a kvs e h1 h2
  constructor
  · simp [execute_tool_sync, h1, h2]
  · simp [execute_tool, h1, h2]

/-- C3 witness: a body-raised error reaching the caller unchanged. -/
theorem execution_error_propagates_raw_witness :
    execute_tool_sync raisingTool (.mapping []) = .error (.userRaised "boom")
    ∧ execute_tool raisingTool (.mapping []) = .error (.userRaised "boom") :=
  execution_error_propagates_raw raisingTool (.mapping []) [] (.userRaised "boom") rfl rfl

/-- C4 counterexample: malformed JSON argument text makes tool execution
fail with the raw json.JSONDecodeError, not with a ToolArgumentDecodeError
carrying the tool name — the parse failure is not wrapped. -/
theorem argument_decode_not_wrapped_cex :
    execute_tool_sync dummyTool (.text "invalid json")
      = .error (.jsonDecodeError "invalid json")
    ∧ (PyError.jsonDecodeError "invalid json").isToolArgumentDecodeError = false :=
  ⟨rfl, rfl⟩

/-- C4 (amended): argument text that is not valid JSON makes execution fail
with the underlying json.JSONDecodeError itself (unwrapped, carrying the
raw text); every valid JSON object string is parsed into the corresponding
mapping before invocation; and a mapping input passes through the
normalizer as the same mapping, unchanged. -/
theorem argument_normalization_behavior :
    (∀ (s : String) (tool : PyToolFn), jsonLoads s = Option.none →
       argumentsNormalizer (.text s) = .error (.jsonDecodeError s)
       ∧ execute_tool_sync tool (.text s) = .error (.jsonDecodeError s))
    ∧ (∀ (s : String) (kvs : List (String × PyValue)), jsonLoads s = some (.dict kvs) →
       argumentsNormalizer (.text s) = .ok (.dict kvs))
    ∧ (∀ kvs : List (String × PyValue),
       argumentsNormalizer (.mapping kvs) = .ok (.dict kvs)) := by
  refine ⟨?_, ?_, ?_⟩
  · intro s tool h
    have ha : argumentsNormalizer (.text s) = .error (.jsonDecodeError s) := by
      simp [argumentsNormalizer, h]
    exact ⟨ha, by simp [execute_tool_sync, ha]⟩
  · intro s kvs h
    simp [argumentsNormalizer, h]
  · intro kvs
    simp [argumentsNormalizer]

/-- C4 witness: the three normalization behaviors at concrete inputs. -/
theorem argument_normalization_behavior_witness :
    execute_tool_sync dummyTool (.text "not valid json")
      = .error (.jsonDecodeError "not valid json")
    ∧ argumentsNormalizer (.text emptyObjText) = .ok (.dict [])
    ∧ argumentsNormalizer (.mapping [("a", .int 5)]) = .ok (.dict [("a", .int 5)]) :=
  ⟨(argument_normalization_behavior.1 "not valid json" dummyTool rfl).2,
   argument_normalization_behavior.2.1 emptyObjText [] rfl,
   argument_normalization_behavior.2.2 [("a", .int 5)]⟩

theorem foldl_collect (p : PyFunc → Bool) (g : PyFunc → ToolDefRecord) :
    ∀ (l : List PyFunc) (acc : List ToolDefRecord),
      l.foldl (fun result m => if p m then result ++ [g m] else result) acc
        = acc ++ (l.filter p).map g := by
  intro l
  induction l with
  | nil => intro acc; simp
  | cons x t ih =>
    intro acc
    by_cases h : p x
    · simp [h, ih]
    · simp [h, ih]

theorem get_tools_eq (ts : PythonToolset) (b : Bool) :
    get_tools ts b
      = (ts.methods.filter (fun m => m.isToolFlag)).map
          (fun m => { fromToolFn m with
                      name := if b then formatToolName ts (fromToolFn m).name
                              else (fromToolFn m).name,
                      defaults := m.toolDefaults }) := by
  show ts.methods.foldl _ [] = _
  rw [foldl_collect (fun m => m.isToolFlag)
        (fun m => { fromToolFn m with
                    name := if b then formatToolName ts (fromToolFn m).name
                            else (fromToolFn m).name,
                    defaults := m.toolDefaults })]
  simp

/-- C8: expanding a toolset yields its member tools in their relative
order; with namespacing requested (the default) each tool's name is
rewritten to the group name joined to the tool's own name by a double
underscore, and with unnamespaced output each tool keeps its original
name. -/
theorem toolset_expansion_namespacing :
    ∀ ts : PythonToolset,
      get_tools ts true
        = (ts.methods.filter (fun m => m.isToolFlag)).map
            (fun m => { fromToolFn m with
                        name := ts.clsName ++ "__" ++ (fromToolFn m).name,
                        defaults := m.toolDefaults })
      ∧ get_tools ts false
        = (ts.methods.filter (fun m => m.isToolFlag)).map
            (fun m => { fromToolFn m with defaults := m.toolDefaults }) := by
  intro ts
  constructor
  · rw [get_tools_eq ts true]
    simp [formatToolName]
  · rw [get_tools_eq ts false]
    simp

/-- C9: the python_tool decorator applied without validation is
schema-transparent — the generated tool definition of the decorated
callable is identical to that of the original callable (same name,
description and parameters schema), and the decorated callable has the very
same body, so it computes the same results. -/
theorem python_tool_schema_transparent :
    ∀ (f : PyFunc) (d : List (String × PyLit)),
      generate_tool_definition (python_tool f d) = generate_tool_definition f
      ∧ (python_tool f d).body = f.body
      ∧ (python_tool f d).isToolFlag = true := by
  intro f d
  cases f
  exact ⟨rfl, rfl, rfl⟩

theorem compileAlts_no_absent (ts : List PyType) (h : ∀ t ∈ ts, t ≠ PyType.tnone) :
    compileAlts ts = ts.map compileType := by
  induction ts with
  | nil => simp [compileAlts]
  | cons t ts ih =>
    have ht : t ≠ PyType.tnone := h t (by simp)
    have ih2 := ih (fun x hx => h x (by simp [hx]))
    cases t <;> simp_all [compileAlts]

/-- C6: a union of two or more non-null alternatives compiles to a oneOf
with one branch per alternative in the original order; a union of one
alternative with the absence marker compiles directly to the other
alternative's schema with no oneOf and no null branch; the absence marker
alone (or a union of only the absence marker) compiles to the permissive
string fallback. -/
theorem union_compilation :
    (∀ (a b : PyType) (ts : List PyType),
       (∀ t ∈ a :: b :: ts, t ≠ PyType.tnone) →
       compileType (.tunion (a :: b :: ts))
         = .obj [("oneOf", .arr ((a :: b :: ts).map compileType))])
    ∧ (∀ t : PyType, t ≠ PyType.tnone →
       compileType (.tunion [t, .tnone]) = compileType t
       ∧ compileType (.tunion [.tnone, t]) = compileType t)
    ∧ compileType (.tunion [.tnone]) = .obj [("type", .s "string")]
    ∧ compileType .tnone = .obj [("type", .s "string")] := by
  refine ⟨?_, ?_, ?_, ?_⟩
  · intro a b ts h
    have hc := compileAlts_no_absent (a :: b :: ts) h
    simp only [compileType, hc, List.map_cons]
  · intro t ht
    constructor
    · have hc : compileAlts [t, PyType.tnone] = [compileType t] := by
        cases t <;> simp_all [compileAlts]
      simp only [compileType, hc]
    · have hc : compileAlts [PyType.tnone, t] = [compileType t] := by
        cases t <;> simp_all [compileAlts]
      simp only [compileType, hc]
  · simp [compileType, compileAlts, strFallback]
  · simp [compileType, strFallback]

/-- C6 witness: union compilation at the inputs of the tests — a two-type
union, both orders of an optional, and the bare absence marker. -/
theorem union_compilation_witness :
    compileType (.tunion [.tstr, .tint])
      = .obj [("oneOf", .arr [compileType .tstr, compileType .tint])]
    ∧ compileType (.tunion [.tstr, .tnone]) = compileType .tstr
    ∧ compileType (.tunion [.tnone, .tint]) = compileType .tint :=
  ⟨union_compilation.1 .tstr .tint [] (by simp),
   (union_compilation.2.1 .tstr (by simp)).1,
   (union_compilation.2.1 .tint (by simp)).2⟩

/-- C7: a fixed-choice enumeration compiles to its member list in
declaration order under the enum key, with the base type inferred by the
bool-int-float-string precedence: an all-boolean set is boolean, an
all-integer set is integer, a numeric set containing a float is number, a
set containing a non-numeric (string) member is string; a named enum
compiles exactly like the literal form. -/
theorem enum_compilation :
    (∀ ms : List PyLit, ms.all PyLit.isBoolLit = true →
       compileType (.tliteral ms)
         = .obj [("type", .s "boolean"), ("enum", .arr (ms.map litToS))])
    ∧ (∀ ms : List PyLit, ms ≠ [] → ms.all PyLit.isIntLit = true →
       compileType (.tliteral ms)
         = .obj [("type", .s "integer"), ("enum", .arr (ms.map litToS))])
    ∧ (∀ ms : List PyLit,
       ms.all (fun m => m.isIntLit || m.isFloatLit) = true → ms.any PyLit.isFloatLit = true →
       compileType (.tliteral ms)
         = .obj [("type", .s "number"), ("enum", .arr (ms.map litToS))])
    ∧ (∀ ms : List PyLit, ms.any PyLit.isStrLit = true →
       compileType (.tliteral ms)
         = .obj [("type", .s "string"), ("enum", .arr (ms.map litToS))])
    ∧ (∀ ms : List PyLit, compileType (.tenum ms) = compileType (.tliteral ms)) := by
  refine ⟨?_, ?_, ?_, ?_, ?_⟩
  · intro ms hb
    simp [compileType, enumSchema, inferEnumBase, hb]
  · intro ms hne hi
    obtain ⟨m, hm⟩ := List.exists_mem_of_ne_nil ms hne
    have hnb : ¬ ms.all PyLit.isBoolLit = true := by
      rw [List.all_eq_true]
      intro hcon
      have h1 := hcon m hm
      have h2 : m.isIntLit = true := by
        rw [List.all_eq_true] at hi
        exact hi m hm
      cases m <;> simp_all [PyLit.isBoolLit, PyLit.isIntLit]
    have hbi : ms.all (fun x => x.isBoolLit || x.isIntLit) = true := by
      rw [List.all_eq_true] at hi ⊢
      intro x hx
      simp [hi x hx]
    simp [compileType, enumSchema, inferEnumBase, hnb, hbi]
  · intro ms hnum hfl
    rw [List.any_eq_true] at hfl
    obtain ⟨m, hm, hmf⟩ := hfl
    have hnb : ¬ ms.all PyLit.isBoolLit = true := by
      rw [List.all_eq_true]
      intro hcon
      have := hcon m hm
      cases m <;> simp_all [PyLit.isBoolLit, PyLit.isFloatLit]
    have hnbi : ¬ ms.all (fun x => x.isBoolLit || x.isIntLit) = true := by
      rw [List.all_eq_true]
      intro hcon
      have := hcon m hm
      cases m <;> simp_all [PyLit.isBoolLit, PyLit.isIntLit, PyLit.isFloatLit]
    have hall : ms.all (fun x => x.isBoolLit || x.isIntLit || x.isFloatLit) = true := by
      rw [List.all_eq_true] at hnum ⊢
      intro x hx
      have := hnum x hx
      cases x <;> simp_all [PyLit.isBoolLit, PyLit.isIntLit, PyLit.isFloatLit]
    simp [compileType, enumSchema, inferEnumBase, hnb, hnbi, hall]
  · intro ms hs
    rw [List.any_eq_true] at hs
    obtain ⟨m, hm, hms⟩ := hs
    have h1 : ¬ ms.all PyLit.isBoolLit = true := by
      rw [List.all_eq_true]
      intro hcon
      have := hcon m hm
      cases m <;> simp_all [PyLit.isBoolLit, PyLit.isStrLit]
    have h2 : ¬ ms.all (fun x => x.isBoolLit || x.isIntLit) = true := by
      rw [List.all_eq_true]
      intro hcon
      have := hcon m hm
      cases m <;> simp_all [PyLit.isBoolLit, PyLit.isIntLit, PyLit.isStrLit]
    have h3 : ¬ ms.all (fun x => x.isBoolLit || x.isIntLit || x.isFloatLit) = true := by
      rw [List.all_eq_true]
      intro hcon
      have := hcon m hm
      cases m <;> simp_all [PyLit.isBoolLit, PyLit.isIntLit, PyLit.isFloatLit, PyLit.isStrLit]
    simp [compileType, enumSchema, inferEnumBase, h1, h2, h3]
  · intro ms
    simp [compileType]

/-- C7 witness: enum base inference at the member sets of the tests — an
all-bool literal, an all-int literal, a mixed-number literal with a float,
and an all-string enumeration. -/
theorem enum_compilation_witness :
    compileType (.tliteral [.pbool true, .pbool false])
      = .obj [("type", .s "boolean"),
              ("enum", .arr [.b true, .b false])]
    ∧ compileType (.tliteral [.pint 1, .pint 2, .pint 3])
      = .obj [("type", .s "integer"),
              ("enum", .arr [.i 1, .i 2, .i 3])]
    ∧ compileType (.tliteral [.pint 1, .pfloat (5 / 2), .pint 3])
      = .obj [("type", .s "number"),
              ("enum", .arr [.i 1, .q (5 / 2), .i 3])]
    ∧ compileType (.tenum [.pstr "red", .pstr "green", .pstr "blue"])
      = .obj [("type", .s "string"),
              ("enum", .arr [.s "red", .s "green", .s "blue"])] :=
  ⟨enum_compilation.1 [.pbool true, .pbool false] (by decide),
   enum_compilation.2.1 [.pint 1, .pint 2, .pint 3] (by simp) (by decide),
   enum_compilation.2.2.1 [.pint 1, .pfloat (5 / 2), .pint 3] (by decide) (by decide),
   (enum_compilation.2.2.2.2 [.pstr "red", .pstr "green", .pstr "blue"]).trans
     (enum_compilation.2.2.2.1 [.pstr "red", .pstr "green", .pstr "blue"] (by decide))⟩

theorem collectAll_append_single (fs : List MessageFragment) (f : MessageFragment) :
    collectAll (fs ++ [f]) = collect (collectAll fs) f := by
  simp [collectAll, List.foldl_append]

theorem strJoin_append_single (l : List String) (s : String) :
    String.join (l ++ [s]) = String.join l ++ s := by
  simp [String.join, List.foldl_append]

theorem findSome?_append_single {α β : Type} (p : α → Option β) (l : List α) (x : α) :
    List.findSome? p (l ++ [x])
      = (match List.findSome? p l with
         | some v => some v
         | Option.none => p x) := by
  induction l with
  | nil =>
    simp [List.findSome?]
    cases p x <;> rfl
  | cons a l ih =>
    rw [List.cons_append, List.findSome?_cons, List.findSome?_cons]
    cases p a <;> simp [ih]

theorem argsJoined_append_single (fs : List MessageFragment) (f : MessageFragment) (i : Int) :
    argsJoined (fs ++ [f]) i
      = argsJoined fs i
        ++ (match chunkOf f with
            | some c => if c.index = i then c.arguments else ""
            | Option.none => "") := by
  unfold argsJoined
  rw [List.filterMap_append]
  cases hc : chunkOf f with
  | none =>
    simp [List.filterMap, hc, String.append_empty]
  | some c =>
    by_cases hi : c.index = i
    · simp [List.filterMap, hc, hi, strJoin_append_single]
    · simp [List.filterMap, hc, hi, String.append_empty]

theorem firstField_append_single (fs : List MessageFragment) (f : MessageFragment) (i : Int)
    (g : ToolCallChunk → Option String) :
    firstField (fs ++ [f]) i g
      = (match firstField fs i g with
         | some v => some v
         | Option.none =>
           match chunkOf f with
           | some c => if c.index = i then g c else Option.none
           | Option.none => Option.none) := by
  unfold firstField
  rw [findSome?_append_single]
  cases List.findSome? _ fs with
  | none => cases hc : chunkOf f <;> simp [hc]
  | some v => rfl

theorem seenFrom_append (fs gs : List MessageFragment) :
    ∀ acc, seenFrom acc (fs ++ gs) = seenFrom (seenFrom acc fs) gs := by
  induction fs with
  | nil => intro acc; rfl
  | cons f t ih =>
    intro acc
    rw [List.cons_append]
    show seenFrom _ (t ++ gs) = _
    rw [ih]
    rfl

theorem mem_seenFrom (i : Int) :
    ∀ (fs : List MessageFragment) (acc : List Int),
      i ∈ seenFrom acc fs ↔ i ∈ acc ∨ fs.any (hasIdx i) = true := by
  intro fs
  induction fs with
  | nil => intro acc; simp [seenFrom]
  | cons f t ih =>
    intro acc
    show i ∈ seenFrom _ t ↔ _
    rw [ih]
    cases hc : chunkOf f with
    | none => simp [hasIdx, hc]
    | some c =>
      by_cases hin : acc.contains c.index
      · simp only [hc, hin, if_pos]
        have hmem : c.index ∈ acc := by
          simpa using hin
        constructor
        · rintro (h | h)
          · exact Or.inl h
          · simp [List.any_cons, h]
        · rintro (h | h)
          · exact Or.inl h
          · rw [List.any_cons] at h
            rcases Bool.or_eq_true_iff.mp h with h1 | h1
            · have : c.index = i := by simpa [hasIdx, hc] using h1
              exact Or.inl (this ▸ hmem)
            · exact Or.inr h1
      · simp only [hc, hin, if_neg, Bool.not_eq_true]
        rw [List.any_cons]
        simp [List.mem_append, hasIdx, hc, Bool.or_eq_true_iff]
        constructor
        · rintro ((h | h) | h)
          · exact Or.inl h
          · exact Or.inr (Or.inl h.symm)
          · exact Or.inr (Or.inr h)
        · rintro (h | h | h)
          · exact Or.inl (Or.inl h)
          · exact Or.inl (Or.inr h.symm)
          · exact Or.inr h

theorem seenFrom_nodup :
    ∀ (fs : List MessageFragment) (acc : List Int), acc.Nodup → (seenFrom acc fs).Nodup := by
  intro fs
  induction fs with
  | nil => intro acc h; exact h
  | cons f t ih =>
    intro acc h
    show (seenFrom _ t).Nodup
    apply ih
    cases hc : chunkOf f with
    | none => exact h
    | some c =>
      by_cases hin : acc.contains c.index
      · simp only [hin, if_pos]
        exact h
      · simp only [hin, if_neg, Bool.not_eq_true]
        have hnm : c.index ∉ acc := by simpa using hin
        simp [List.nodup_append, h, hnm]

theorem mergeChunk_all_miss (c : ToolCallChunk) :
    ∀ l : List ToolCallAccum, (∀ a ∈ l, a.index ≠ c.index) →
      mergeChunk l c = l ++ [⟨c.index, c.id, c.name, c.arguments⟩] := by
  intro l
  induction l with
  | nil => intro _; rfl
  | cons a t ih =>
    intro h
    have ha : a.index ≠ c.index := h a (by simp)
    simp [mergeChunk, ha, ih (fun x hx => h x (by simp [hx]))]

theorem mergeChunk_map_mem (c : ToolCallChunk) (ent : Int → ToolCallAccum)
    (hidx : ∀ j, (ent j).index = j) :
    ∀ S : List Int, S.Nodup → c.index ∈ S →
      mergeChunk (S.map ent) c
        = S.map (fun j => if j = c.index then updAccum (ent j) c else ent j) := by
  intro S
  induction S with
  | nil => intro _ h; simp at h
  | cons j t ih =>
    intro hnd hmem
    rw [List.map_cons, List.map_cons]
    by_cases hj : j = c.index
    · have hne : ∀ x ∈ t, x ≠ c.index := by
        intro x hx hcon
        exact (List.nodup_cons.mp hnd).1 (hj ▸ (hcon ▸ hx))
      have hcond : (ent j).index = c.index := by rw [hidx, hj]
      simp only [mergeChunk, if_pos hcond, if_pos hj]
      congr 1
      apply (List.map_eq_map_iff).mpr
      intro x hx
      rw [if_neg (hne x hx)]
    · have hmem2 : c.index ∈ t := by
        rcases List.mem_cons.mp hmem with h | h
        · exact absurd h.symm hj
        · exact h
      have hmiss : (ent j).index ≠ c.index := by
        rw [hidx]; exact hj
      simp only [mergeChunk, hmiss, if_neg, ite_false, if_neg hj]
      rw [ih (List.nodup_cons.mp hnd).2 hmem2]

theorem no_idx_args (i : Int) :
    ∀ fs : List MessageFragment, fs.any (hasIdx i) = false → argsJoined fs i = "" := by
  intro fs
  induction fs with
  | nil => intro _; rfl
  | cons f t ih =>
    intro h
    rw [List.any_cons] at h
    have h1 : hasIdx i f = false ∧ t.any (hasIdx i) = false := by simpa using h
    have iha := ih h1.2
    cases hc : chunkOf f with
    | none =>
      unfold argsJoined at iha ⊢
      simp [List.filterMap_cons, hc, iha]
    | some c =>
      have hne : ¬ c.index = i := by
        have := h1.1
        simpa [hasIdx, hc] using this
      unfold argsJoined at iha ⊢
      simp [List.filterMap_cons, hc, hne, iha]

theorem no_idx_field (i : Int) (g : ToolCallChunk → Option String) :
    ∀ fs : List MessageFragment, fs.any (hasIdx i) = false →
      firstField fs i g = Option.none := by
  intro fs
  induction fs with
  | nil => intro _; rfl
  | cons f t ih =>
    intro h
    rw [List.any_cons] at h
    have h1 : hasIdx i f = false ∧ t.any (hasIdx i) = false := by simpa using h
    have ihf := ih h1.2
    cases hc : chunkOf f with
    | none =>
      unfold firstField at ihf ⊢
      simp [List.findSome?_cons, hc, ihf]
    | some c =>
      have hne : ¬ c.index = i := by
        have := h1.1
        simpa [hasIdx, hc] using this
      unfold firstField at ihf ⊢
      simp [List.findSome?_cons, hc, hne, ihf]

theorem specEntry_neutral (fs : List MessageFragment) (f : MessageFragment)
    (hc : chunkOf f = Option.none) (i : Int) :
    specEntry (fs ++ [f]) i = specEntry fs i := by
  unfold specEntry
  rw [argsJoined_append_single, firstField_append_single, firstField_append_single]
  rw [hc]
  have h1 : ∀ g : ToolCallChunk → Option String,
      (match firstField fs i g with
       | some v => some v
       | Option.none => (Option.none : Option String)) = firstField fs i g := by
    intro g
    cases firstField fs i g <;> rfl
  rw [h1, h1, String.append_empty]

theorem specEntry_other (fs : List MessageFragment) (c : ToolCallChunk) (i : Int)
    (hne : ¬ c.index = i) :
    specEntry (fs ++ [.toolCallDelta c]) i = specEntry fs i := by
  unfold specEntry
  rw [argsJoined_append_single, firstField_append_single, firstField_append_single]
  simp only [chunkOf, hne, ite_false, if_neg, String.append_empty]
  have h1 : ∀ g : ToolCallChunk → Option String,
      (match firstField fs i g with
       | some v => some v
       | Option.none => (Option.none : Option String)) = firstField fs i g := by
    intro g
    cases firstField fs i g <;> rfl
  rw [h1, h1]

theorem specEntry_same (fs : List MessageFragment) (c : ToolCallChunk) :
    specEntry (fs ++ [.toolCallDelta c]) c.index
      = updAccum (specEntry fs c.index) c := by
  unfold specEntry updAccum
  rw [argsJoined_append_single, firstField_append_single, firstField_append_single]
  simp only [chunkOf, ite_true, if_pos rfl]

/-- C2: finalizing the streaming assembler on any fragment sequence yields
exactly one tool-call entry per distinct index seen across the tool-call
argument deltas, in first-seen index order, whose arguments string is the
arrival-order concatenation of all chunks for that index, and whose id and
name come from the first fragment of that index carrying them — a later
fragment with a null or absent id or name never erases set values. -/
theorem streaming_toolcall_invariant :
    ∀ fs : List MessageFragment,
      (collectAll fs).toolCalls = (seenIndices fs).map (specEntry fs) := by
  intro fs
  induction fs using List.reverseRecOn with
  | nil => rfl
  | append_singleton fs f ih =>
    rw [collectAll_append_single]
    have hseen : seenIndices (fs ++ [f]) = seenFrom (seenIndices fs) [f] :=
      seenFrom_append fs [f] []
    cases f with
    | toolCallDelta c =>
      show mergeChunk (collectAll fs).toolCalls c = _
      rw [ih]
      by_cases hmem : c.index ∈ seenIndices fs
      · have hcont : (seenIndices fs).contains c.index = true := by simpa using hmem
        have hseen2 : seenIndices (fs ++ [MessageFragment.toolCallDelta c]) = seenIndices fs := by
          rw [hseen]
          show seenFrom _ [] = _
          simp [chunkOf, hcont, seenFrom, hmem]
        rw [hseen2]
        rw [mergeChunk_map_mem c (specEntry fs) (fun j => rfl) (seenIndices fs)
              (seenFrom_nodup fs [] List.nodup_nil) hmem]
        apply (List.map_eq_map_iff).mpr
        intro j hj
        by_cases hji : j = c.index
        · rw [if_pos hji, hji, specEntry_same]
        · rw [if_neg hji, specEntry_other fs c j (fun hcon => hji hcon.symm)]
      · have hcont : (seenIndices fs).contains c.index = false := by
          simpa using hmem
        have hseen2 : seenIndices (fs ++ [MessageFragment.toolCallDelta c])
            = seenIndices fs ++ [c.index] := by
          rw [hseen]
          show seenFrom _ [] = _
          simp [chunkOf, hcont, seenFrom, hmem]
        rw [hseen2]
        have hnone : fs.any (hasIdx c.index) = false := by
          have := (mem_seenFrom c.index fs []).not.mp hmem
          simp only [List.not_mem_nil, false_or] at this
          simpa using this
        have hmiss : ∀ a ∈ (seenIndices fs).map (specEntry fs), a.index ≠ c.index := by
          intro a ha
          rw [List.mem_map] at ha
          obtain ⟨j, hj, rfl⟩ := ha
          show j ≠ c.index
          intro hcon
          exact hmem (hcon ▸ hj)
        rw [mergeChunk_all_miss c _ hmiss]
        rw [List.map_append]
        congr 1
        · apply (List.map_eq_map_iff).mpr
          intro j hj
          have hji : ¬ c.index = j := by
            intro hcon
            exact hmem (hcon ▸ hj)
          exact (specEntry_other fs c j hji).symm
        · show _ = [specEntry (fs ++ [MessageFragment.toolCallDelta c]) c.index]
          unfold specEntry
          rw [argsJoined_append_single, firstField_append_single, firstField_append_single]
          rw [no_idx_args c.index fs hnone, no_idx_field c.index _ fs hnone,
              no_idx_field c.index _ fs hnone]
          simp only [chunkOf, ite_true, if_pos rfl]
          rfl
    | textDelta t0 =>
      show (collectAll fs).toolCalls = _
      rw [ih]
      have hseen2 : seenIndices (fs ++ [MessageFragment.textDelta t0]) = seenIndices fs := by
        rw [hseen]; rfl
      have hcnone : chunkOf (MessageFragment.textDelta t0) = Option.none := rfl
      rw [hseen2]
      exact (List.map_eq_map_iff).mpr (fun j _ => (specEntry_neutral fs _ hcnone j).symm)
    | reasoningDelta t0 =>
      show (collectAll fs).toolCalls = _
      rw [ih]
      have hseen2 : seenIndices (fs ++ [MessageFragment.reasoningDelta t0]) = seenIndices fs := by
        rw [hseen]; rfl
      have hcnone : chunkOf (MessageFragment.reasoningDelta t0) = Option.none := rfl
      rw [hseen2]
      exact (List.map_eq_map_iff).mpr (fun j _ => (specEntry_neutral fs _ hcnone j).symm)
    | usageDelta u =>
      show (collectAll fs).toolCalls = _
      rw [ih]
      have hseen2 : seenIndices (fs ++ [MessageFragment.usageDelta u]) = seenIndices fs := by
        rw [hseen]; rfl
      have hcnone : chunkOf (MessageFragment.usageDelta u) = Option.none := rfl
      rw [hseen2]
      exact (List.map_eq_map_iff).mpr (fun j _ => (specEntry_neutral fs _ hcnone j).symm)
    | terminal =>
      show (collectAll fs).toolCalls = _
      rw [ih]
      have hseen2 : seenIndices (fs ++ [MessageFragment.terminal]) = seenIndices fs := by
        rw [hseen]; rfl
      have hcnone : chunkOf MessageFragment.terminal = Option.none := rfl
      rw [hseen2]
      exact (List.map_eq_map_iff).mpr (fun j _ => (specEntry_neutral fs _ hcnone j).symm)

theorem digit_char_spec (d : Nat) (h : d < 10) :
    (Char.ofNat (48 + d)).isDigit = true
    ∧ (Char.ofNat (48 + d)).toNat - 48 = d
    ∧ wsChar (Char.ofNat (48 + d)) = false := by
  interval_cases d <;> exact ⟨by decide, by decide, by decide⟩

theorem natDigitsFuel_digits :
    ∀ (f n : Nat), ∀ c ∈ natDigitsFuel f n, c.isDigit = true := by
  intro f
  induction f with
  | zero => intro n c hc; simp [natDigitsFuel] at hc
  | succ f ih =>
    intro n c hc
    by_cases h0 : n = 0
    · simp [natDigitsFuel, h0] at hc
    · rw [natDigitsFuel, if_neg h0] at hc
      rcases List.mem_append.mp hc with h | h
      · exact ih _ c h
      · rw [List.mem_singleton] at h
        subst h
        exact (digit_char_spec (n % 10) (Nat.mod_lt _ (by omega))).1

theorem natDigitsFuel_foldl :
    ∀ (f n : Nat), n < f → ∀ acc : Nat,
      (natDigitsFuel f n).foldl (fun a c => a * 10 + (c.toNat - 48)) acc
        = acc * 10 ^ (natDigitsFuel f n).length + n := by
  intro f
  induction f with
  | zero => intro n h; omega
  | succ f ih =>
    intro n h acc
    by_cases h0 : n = 0
    · simp [natDigitsFuel, h0]
    · rw [natDigitsFuel, if_neg h0]
      rw [List.foldl_append]
      have hrec : n / 10 < f := by
        have h1 : n / 10 < n := Nat.div_lt_self (by omega) (by omega)
        omega
      rw [ih (n / 10) hrec acc]
      simp only [List.foldl_cons, List.foldl_nil, List.length_append, List.length_singleton]
      rw [(digit_char_spec (n % 10) (Nat.mod_lt _ (by omega))).2.1]
      rw [pow_succ]
      have hn : n = 10 * (n / 10) + n % 10 := (Nat.div_add_mod n 10).symm
      ring_nf
      omega

theorem digitsNat_natChars (n : Nat) : digitsNat (natChars n) = n := by
  by_cases h0 : n = 0
  · subst h0
    decide
  · rw [natChars, if_neg h0, digitsNat, natDigitsFuel_foldl (n + 1) n (by omega) 0]
    simp

theorem natChars_digits (n : Nat) : ∀ c ∈ natChars n, c.isDigit = true := by
  by_cases h0 : n = 0
  · subst h0
    intro c hc
    rw [natChars] at hc
    simp at hc
    subst hc
    decide
  · rw [natChars, if_neg h0]
    exact natDigitsFuel_digits (n + 1) n

theorem natChars_ne_nil (n : Nat) : natChars n ≠ [] := by
  by_cases h0 : n = 0
  · subst h0; decide
  · rw [natChars, if_neg h0, natDigitsFuel, if_neg h0]
    simp

theorem readDigits_run :
    ∀ (ds : List Char), (∀ c ∈ ds, c.isDigit = true) →
    ∀ rest : List Char, digitSafe rest = true →
      readDigits (ds ++ rest) = (ds, rest) := by
  intro ds
  induction ds with
  | nil =>
    intro _ rest hr
    cases rest with
    | nil => rfl
    | cons c t =>
      have hc : c.isDigit = false := by simpa [digitSafe] using hr
      simp [readDigits, hc]
  | cons c t ih =>
    intro hd rest hr
    have hc : c.isDigit = true := hd c (by simp)
    have ht := ih (fun x hx => hd x (by simp [hx])) rest hr
    simp [readDigits, hc, ht]

theorem wsChar_digit {c : Char} (h : c.isDigit = true) : wsChar c = false := by
  simp only [wsChar, Bool.or_eq_false_iff, decide_eq_false_iff_not]
  refine ⟨⟨⟨?_, ?_⟩, ?_⟩, ?_⟩ <;> (intro hcon; subst hcon; exact absurd h (by decide))

theorem digit_ne_starts {c : Char} (h : c.isDigit = true) :
    c ≠ 'n' ∧ c ≠ 't' ∧ c ≠ 'f' ∧ c ≠ '"' ∧ c ≠ '[' ∧ c ≠ '\x7b' ∧ c ≠ '-'
    ∧ c ≠ ']' ∧ c ≠ '\x7d' ∧ c ≠ ',' ∧ c ≠ ':' := by
  refine ⟨?_, ?_, ?_, ?_, ?_, ?_, ?_, ?_, ?_, ?_, ?_⟩ <;>
    (intro hcon; subst hcon; exact absurd h (by decide))

theorem skipWs_cons_not {c : Char} {t : List Char} (h : wsChar c = false) :
    skipWs (c :: t) = c :: t := by
  simp [skipWs, h]

theorem parseValue_num_branch (fuel : Nat) (c : Char) (t : List Char)
    (hd : c.isDigit = true) :
    parseValue (fuel + 1) (c :: t)
      = some (.int (digitsNat (readDigits (c :: t)).1 : Int), (readDigits (c :: t)).2) := by
  obtain ⟨hn, ht, hf, hq, hbk, hbc, hm, _, _, _, _⟩ := digit_ne_starts hd
  have hws := wsChar_digit hd
  simp only [parseValue]
  rw [skipWs_cons_not hws]
  simp [hn, ht, hf, hq, hbk, hbc, hm, hd]

theorem parseValue_minus_branch (fuel : Nat) (t : List Char) :
    parseValue (fuel + 1) ('-' :: t)
      = (match readDigits t with
         | ([], _) => Option.none
         | (ds, r1) => some (.int (-(digitsNat ds : Int)), r1)) := by
  simp only [parseValue]
  rw [skipWs_cons_not (by decide)]
  rfl

theorem natChars_cons (n : Nat) :
    ∃ c t, natChars n = c :: t ∧ c.isDigit = true := by
  match h : natChars n with
  | [] => exact absurd h (natChars_ne_nil n)
  | c :: t =>
    refine ⟨c, t, rfl, ?_⟩
    exact natChars_digits n c (h ▸ List.mem_cons_self c t)

theorem parse_int_round (i : Int) (fuel : Nat) (rest : List Char)
    (hr : digitSafe rest = true) :
    parseValue (fuel + 1) (intChars i ++ rest) = some (.int i, rest) := by
  have hrun := readDigits_run (natChars i.natAbs) (natChars_digits i.natAbs) rest hr
  by_cases hneg : i < 0
  · rw [intChars, if_pos hneg, List.cons_append, parseValue_minus_branch, hrun]
    obtain ⟨c, t, hct, _⟩ := natChars_cons i.natAbs
    rw [hct]
    show some (PyValue.int (-(digitsNat (c :: t) : Int)), rest) = some (PyValue.int i, rest)
    have hv : digitsNat (c :: t) = i.natAbs := by
      rw [← hct, digitsNat_natChars]
    rw [hv]
    have hi : -(i.natAbs : Int) = i := by omega
    rw [hi]
  · rw [intChars, if_neg hneg]
    obtain ⟨c, t, hct, hcd⟩ := natChars_cons i.natAbs
    rw [hct, List.cons_append, parseValue_num_branch fuel c _ hcd, ← List.cons_append, ← hct,
        hrun]
    have hv : digitsNat (natChars i.natAbs) = i.natAbs := digitsNat_natChars i.natAbs
    rw [hv]
    have : (i.natAbs : Int) = i := by omega
    rw [this]

theorem hexVal_hexChar (d : Nat) (h : d < 16) : hexVal (hexChar d) = some d := by
  interval_cases d <;> decide

theorem parseStrBody_short (acc rest : List Char) (e x : Char)
    (hu : ¬ e = 'u') (hc : unescChar e = some x) :
    parseStrBody acc ('\\' :: e :: rest) = parseStrBody (x :: acc) rest := by
  rw [parseStrBody.eq_def]
  simp [hu, hc]

theorem parseStrBody_uesc (acc rest : List Char) (n : Nat) (hn : n < 32) :
    parseStrBody acc ('\\' :: 'u' :: '0' :: '0' :: hexChar (n / 16) :: hexChar (n % 16) :: rest)
      = parseStrBody (Char.ofNat n :: acc) rest := by
  rw [parseStrBody.eq_def]
  have hv0 : hexVal '0' = some 0 := by decide
  have hv1 := hexVal_hexChar (n / 16) (by omega)
  have hv2 := hexVal_hexChar (n % 16) (Nat.mod_lt _ (by omega))
  simp only [hv0, hv1, hv2]
  have harith : n / 16 * 16 + n % 16 = n := by omega
  simp [harith]

theorem parseStrBody_esc (c : Char) (acc rest : List Char) :
    parseStrBody acc (escChar c ++ rest) = parseStrBody (c :: acc) rest := by
  by_cases h1 : c = '\\'
  · subst h1
    rw [show escChar '\\' = ['\\', '\\'] from by decide]
    exact parseStrBody_short acc rest '\\' '\\' (by decide) (by decide)
  by_cases h2 : c = '"'
  · subst h2
    rw [show escChar '"' = ['\\', '"'] from by decide]
    exact parseStrBody_short acc rest '"' '"' (by decide) (by decide)
  by_cases h3 : c = '\x08'
  · subst h3
    rw [show escChar '\x08' = ['\\', 'b'] from by decide]
    exact parseStrBody_short acc rest 'b' '\x08' (by decide) (by decide)
  by_cases h4 : c = '\x0c'
  · subst h4
    rw [show escChar '\x0c' = ['\\', 'f'] from by decide]
    exact parseStrBody_short acc rest 'f' '\x0c' (by decide) (by decide)
  by_cases h5 : c = '\n'
  · subst h5
    rw [show escChar '\n' = ['\\', 'n'] from by decide]
    exact parseStrBody_short acc rest 'n' '\n' (by decide) (by decide)
  by_cases h6 : c = '\r'
  · subst h6
    rw [show escChar '\r' = ['\\', 'r'] from by decide]
    exact parseStrBody_short acc rest 'r' '\r' (by decide) (by decide)
  by_cases h7 : c = '\t'
  · subst h7
    rw [show escChar '\t' = ['\\', 't'] from by decide]
    exact parseStrBody_short acc rest 't' '\t' (by decide) (by decide)
  rw [escChar, if_neg h1, if_neg h2, if_neg h3, if_neg h4, if_neg h5, if_neg h6, if_neg h7]
  by_cases h8 : c.toNat < 32
  · rw [if_pos h8]
    show parseStrBody acc ('\\' :: 'u' :: '0' :: '0' :: hexChar (c.toNat / 16)
          :: hexChar (c.toNat % 16) :: rest) = _
    rw [parseStrBody_uesc acc rest c.toNat h8, Char.ofNat_toNat]
  · rw [if_neg h8]
    show parseStrBody acc (c :: rest) = _
    rw [parseStrBody.eq_def]
    simp [h1, h2]

theorem parseStrBody_run (l : List Char) :
    ∀ (acc rest : List Char),
      parseStrBody acc (escBody l ++ '"' :: rest)
        = some (String.mk (acc.reverse ++ l), rest) := by
  induction l with
  | nil =>
    intro acc rest
    show parseStrBody acc ('"' :: rest) = _
    rw [parseStrBody.eq_def]
    simp
  | cons c l ih =>
    intro acc rest
    rw [escBody, List.append_assoc, parseStrBody_esc, ih]
    simp

theorem parseValue_str_round (s : String) (fuel : Nat) (rest : List Char) :
    parseValue (fuel + 1) (quoteChars s ++ rest) = some (.str s, rest) := by
  rw [quoteChars, List.cons_append]
  simp only [parseValue]
  rw [skipWs_cons_not (by decide)]
  rw [List.append_assoc]
  show (match parseStrBody [] (escBody s.data ++ ('"' :: rest)) with
        | some (t, r1) => some (PyValue.str t, r1)
        | Option.none => Option.none) = _
  rw [parseStrBody_run s.data [] rest]
  simp

theorem dumpsChars_headB (v : PyValue) :
    ∃ c t, dumpsChars v = c :: t ∧ (wsChar c || c = ']' || c = '\x7d') = false := by
  cases v with
  | int i =>
    show ∃ c t, intChars i = c :: t ∧ _
    rcases Int.lt_or_le i 0 with hneg | hpos
    · refine ⟨'-', natChars i.natAbs, ?_, ?_⟩
      · rw [intChars, if_pos hneg]
      · decide
    · obtain ⟨c, t, hct, hcd⟩ := natChars_cons i.natAbs
      obtain ⟨_, _, _, _, _, _, _, hbr, hbc, _, _⟩ := digit_ne_starts hcd
      refine ⟨c, t, ?_, ?_⟩
      · rw [intChars, if_neg (by omega), hct]
      · simp [wsChar_digit hcd, hbr, hbc]
  | none =>
    refine ⟨'n', _, rfl, ?_⟩
    decide
  | bool b =>
    rcases b
    · refine ⟨'f', _, rfl, ?_⟩
      decide
    · refine ⟨'t', _, rfl, ?_⟩
      decide
  | str s =>
    refine ⟨'"', _, rfl, ?_⟩
    decide
  | list xs =>
    refine ⟨'[', _, rfl, ?_⟩
    decide
  | dict kvs =>
    refine ⟨'\x7b', _, rfl, ?_⟩
    decide

theorem dumpsChars_head (v : PyValue) :
    ∃ c t, dumpsChars v = c :: t ∧ wsChar c = false ∧ ¬ c = ']' ∧ ¬ c = '\x7d' := by
  obtain ⟨c, t, hct, h⟩ := dumpsChars_headB v
  rw [Bool.or_eq_false_iff, Bool.or_eq_false_iff] at h
  refine ⟨c, t, hct, h.1.1, ?_, ?_⟩
  · simpa using h.1.2
  · simpa using h.2

theorem skipWs_dumps (v : PyValue) (x : List Char) :
    skipWs (dumpsChars v ++ x) = dumpsChars v ++ x := by
  obtain ⟨c, t, hct, hws, _, _⟩ := dumpsChars_head v
  rw [hct, List.cons_append, skipWs_cons_not hws]

theorem parseValue_ws (fuel : Nat) (c : Char) (cs : List Char) (h : wsChar c = true) :
    parseValue fuel (c :: cs) = parseValue fuel cs := by
  cases fuel with
  | zero => rfl
  | succ f =>
    simp only [parseValue]
    rw [show skipWs (c :: cs) = skipWs cs from by simp [skipWs, h]]

theorem parseItems_ws (fuel : Nat) (c : Char) (cs : List Char) (h : wsChar c = true) :
    parseItems fuel (c :: cs) = parseItems fuel cs := by
  cases fuel with
  | zero => rfl
  | succ f =>
    simp only [parseItems]
    rw [parseValue_ws f c cs h]

theorem parseEntries_ws (fuel : Nat) (c : Char) (cs : List Char) (h : wsChar c = true) :
    parseEntries fuel (c :: cs) = parseEntries fuel cs := by
  cases fuel with
  | zero => rfl
  | succ f =>
    simp only [parseEntries]
    rw [show skipWs (c :: cs) = skipWs cs from by simp [skipWs, h]]

theorem parseValue_arr_branch (fuel : Nat) (c : Char) (t : List Char)
    (hws : wsChar c = false) (hbr : ¬ c = ']') :
    parseValue (fuel + 1) ('[' :: (c :: t))
      = (match parseItems fuel (c :: t) with
         | some (vs, r1) => some (.list vs, r1)
         | Option.none => Option.none) := by
  simp only [parseValue]
  rw [skipWs_cons_not (by decide : wsChar '[' = false)]
  show (match skipWs (c :: t) with
        | [] => Option.none
        | c1 :: t1 =>
          if c1 = ']' then some (PyValue.list [], t1)
          else match parseItems fuel (c1 :: t1) with
               | some (vs, r1) => some (PyValue.list vs, r1)
               | Option.none => Option.none) = _
  rw [skipWs_cons_not hws]
  show (if c = ']' then some (PyValue.list [], t)
        else match parseItems fuel (c :: t) with
             | some (vs, r1) => some (PyValue.list vs, r1)
             | Option.none => Option.none) = _
  rw [if_neg hbr]

theorem parseValue_obj_branch (fuel : Nat) (c : Char) (t : List Char)
    (hws : wsChar c = false) (hbc : ¬ c = '\x7d') :
    parseValue (fuel + 1) ('\x7b' :: (c :: t))
      = (match parseEntries fuel (c :: t) with
         | some (kvs, r1) => some (.dict kvs, r1)
         | Option.none => Option.none) := by
  simp only [parseValue]
  rw [skipWs_cons_not (by decide : wsChar '\x7b' = false)]
  show (match skipWs (c :: t) with
        | [] => Option.none
        | c1 :: t1 =>
          if c1 = '\x7d' then some (PyValue.dict [], t1)
          else match parseEntries fuel (c1 :: t1) with
               | some (kvs, r1) => some (PyValue.dict kvs, r1)
               | Option.none => Option.none) = _
  rw [skipWs_cons_not hws]
  show (if c = '\x7d' then some (PyValue.dict [], t)
        else match parseEntries fuel (c :: t) with
             | some (kvs, r1) => some (PyValue.dict kvs, r1)
             | Option.none => Option.none) = _
  rw [if_neg hbc]

theorem dumpsItems_cons (x : PyValue) (xs : List PyValue) :
    ∃ tr, dumpsItems (x :: xs) = dumpsChars x ++ tr
      ∧ (xs = [] → tr = [])
      ∧ (xs ≠ [] → tr = ',' :: ' ' :: dumpsItems xs) := by
  cases xs with
  | nil =>
    refine ⟨[], ?_, fun _ => rfl, fun h => absurd rfl h⟩
    simp [dumpsItems]
  | cons y ys =>
    refine ⟨',' :: ' ' :: dumpsItems (y :: ys), ?_, ?_, fun _ => rfl⟩
    · simp [dumpsItems]
    · intro h
      exact absurd h (by simp)

theorem dumpsEntries_cons (k : String) (v : PyValue) (kvs : List (String × PyValue)) :
    ∃ tr, dumpsEntries ((k, v) :: kvs) = quoteChars k ++ ':' :: ' ' :: (dumpsChars v ++ tr)
      ∧ (kvs = [] → tr = [])
      ∧ (kvs ≠ [] → tr = ',' :: ' ' :: dumpsEntries kvs) := by
  cases kvs with
  | nil =>
    refine ⟨[], ?_, fun _ => rfl, fun h => absurd rfl h⟩
    simp [dumpsEntries]
  | cons e es =>
    refine ⟨',' :: ' ' :: dumpsEntries (e :: es), ?_, ?_, fun _ => rfl⟩
    · obtain ⟨k2, v2⟩ := e
      simp [dumpsEntries, List.append_assoc]
    · intro h
      exact absurd h (by simp)

theorem parseItems_step (f : Nat) (cs : List Char) :
    parseItems (f + 1) cs
      = (match parseValue f cs with
         | Option.none => Option.none
         | some (v, r) =>
           match skipWs r with
           | ',' :: r1 =>
             (match parseItems f r1 with
              | some (vs, r2) => some (v :: vs, r2)
              | Option.none => Option.none)
           | ']' :: r1 => some ([v], r1)
           | _ => Option.none) := rfl

theorem parseEntries_step (f : Nat) (cs : List Char) :
    parseEntries (f + 1) cs
      = (match skipWs cs with
         | '"' :: r =>
           (match parseStrBody [] r with
            | Option.none => Option.none
            | some (k, r1) =>
              match skipWs r1 with
              | ':' :: r2 =>
                (match parseValue f r2 with
                 | Option.none => Option.none
                 | some (v, r3) =>
                   match skipWs r3 with
                   | ',' :: r4 =>
                     (match parseEntries f r4 with
                      | some (kvs, r5) => some ((k, v) :: kvs, r5)
                      | Option.none => Option.none)
                   | '\x7d' :: r4 => some ([(k, v)], r4)
                   | _ => Option.none)
              | _ => Option.none)
         | _ => Option.none) := rfl

mutual
theorem rtValue : ∀ (v : PyValue) (fuel : Nat) (rest : List Char),
    (dumpsChars v).length < fuel → digitSafe rest = true →
    parseValue fuel (dumpsChars v ++ rest) = some (v, rest)
  | .none, fuel, rest, hf, _ => by
    cases fuel with
    | zero => exact absurd hf (Nat.not_lt_zero _)
    | succ f =>
      show parseValue (f + 1) ('n' :: 'u' :: 'l' :: 'l' :: rest) = _
      simp only [parseValue]
      rw [skipWs_cons_not (by decide)]
      rfl
  | .bool true, fuel, rest, hf, _ => by
    cases fuel with
    | zero => exact absurd hf (Nat.not_lt_zero _)
    | succ f =>
      show parseValue (f + 1) ('t' :: 'r' :: 'u' :: 'e' :: rest) = _
      simp only [parseValue]
      rw [skipWs_cons_not (by decide)]
      rfl
  | .bool false, fuel, rest, hf, _ => by
    cases fuel with
    | zero => exact absurd hf (Nat.not_lt_zero _)
    | succ f =>
      show parseValue (f + 1) ('f' :: 'a' :: 'l' :: 's' :: 'e' :: rest) = _
      simp only [parseValue]
      rw [skipWs_cons_not (by decide)]
      rfl
  | .int i, fuel, rest, hf, hr => by
    cases fuel with
    | zero => exact absurd hf (Nat.not_lt_zero _)
    | succ f => exact parse_int_round i f rest hr
  | .str s, fuel, rest, hf, _ => by
    cases fuel with
    | zero => exact absurd hf (Nat.not_lt_zero _)
    | succ f => exact parseValue_str_round s f rest
  | .list [], fuel, rest, hf, _ => by
    cases fuel with
    | zero => exact absurd hf (Nat.not_lt_zero _)
    | succ f =>
      show parseValue (f + 1) ('[' :: ']' :: rest) = _
      simp only [parseValue]
      rw [skipWs_cons_not (by decide)]
      show (match skipWs (']' :: rest) with
            | [] => Option.none
            | c :: t =>
              if c = ']' then some (PyValue.list [], t)
              else match parseItems f (c :: t) with
                   | some (vs, r1) => some (PyValue.list vs, r1)
                   | Option.none => Option.none) = _
      rw [skipWs_cons_not (by decide)]
      simp
  | .list (x :: xs), fuel, rest, hf, _ => by
    cases fuel with
    | zero => exact absurd hf (Nat.not_lt_zero _)
    | succ f =>
      obtain ⟨c, t, hct, hws, hbr, _⟩ := dumpsChars_head x
      obtain ⟨tr, htr, _, _⟩ := dumpsItems_cons x xs
      have hlen : (dumpsItems (x :: xs)).length + 1 < f := by
        have : (dumpsChars (PyValue.list (x :: xs))).length
            = (dumpsItems (x :: xs)).length + 2 := by
          simp [dumpsChars]
        omega
      have hshape : dumpsChars (.list (x :: xs)) ++ rest
          = '[' :: (dumpsItems (x :: xs) ++ ']' :: rest) := by
        simp [dumpsChars, List.append_assoc]
      have hx : dumpsItems (x :: xs) ++ ']' :: rest = c :: (t ++ (tr ++ ']' :: rest)) := by
        rw [htr, hct]
        simp [List.append_assoc]
      rw [hshape, hx, parseValue_arr_branch f c _ hws hbr, ← hx,
          rtItems x xs f rest hlen]
  | .dict [], fuel, rest, hf, _ => by
    cases fuel with
    | zero => exact absurd hf (Nat.not_lt_zero _)
    | succ f =>
      show parseValue (f + 1) ('\x7b' :: '\x7d' :: rest) = _
      simp only [parseValue]
      rw [skipWs_cons_not (by decide)]
      show (match skipWs ('\x7d' :: rest) with
            | [] => Option.none
            | c :: t =>
              if c = '\x7d' then some (PyValue.dict [], t)
              else match parseEntries f (c :: t) with
                   | some (kvs, r1) => some (PyValue.dict kvs, r1)
                   | Option.none => Option.none) = _
      rw [skipWs_cons_not (by decide)]
      simp
  | .dict ((k, v) :: kvs), fuel, rest, hf, _ => by
    cases fuel with
    | zero => exact absurd hf (Nat.not_lt_zero _)
    | succ f =>
      have hlen : (dumpsEntries ((k, v) :: kvs)).length + 1 < f := by
        have : (dumpsChars (PyValue.dict ((k, v) :: kvs))).length
            = (dumpsEntries ((k, v) :: kvs)).length + 2 := by
          simp [dumpsChars]
        omega
      have hshape : dumpsChars (.dict ((k, v) :: kvs)) ++ rest
          = '\x7b' :: (dumpsEntries ((k, v) :: kvs) ++ '\x7d' :: rest) := by
        simp [dumpsChars, List.append_assoc]
      obtain ⟨tr, htr, _, _⟩ := dumpsEntries_cons k v kvs
      have hx : dumpsEntries ((k, v) :: kvs) ++ '\x7d' :: rest
          = '"' :: ((escBody k.data ++ ['"']) ++ (':' :: ' ' :: (dumpsChars v ++ tr)
              ++ '\x7d' :: rest)) := by
        rw [htr, quoteChars]
        simp [List.append_assoc]
      rw [hshape, hx, parseValue_obj_branch f '"' _ (by decide) (by decide), ← hx,
          rtEntries k v kvs f rest hlen]
termination_by v _ _ _ _ => sizeOf v

theorem rtItems : ∀ (x : PyValue) (xs : List PyValue) (fuel : Nat) (rest : List Char),
    (dumpsItems (x :: xs)).length + 1 < fuel →
    parseItems fuel (dumpsItems (x :: xs) ++ ']' :: rest) = some (x :: xs, rest)
  | x, [], fuel, rest, hf => by
    cases fuel with
    | zero => exact absurd hf (Nat.not_lt_zero _)
    | succ f =>
      have hfe : (dumpsChars x).length < f := by
        have : (dumpsItems [x]).length = (dumpsChars x).length := by simp [dumpsItems]
        omega
      have heq : dumpsItems [x] ++ ']' :: rest = dumpsChars x ++ ']' :: rest := by
        simp [dumpsItems]
      rw [heq, parseItems_step, rtValue x f (']' :: rest) hfe (by rfl)]
      show (match skipWs (']' :: rest) with
            | ',' :: r1 =>
              (match parseItems f r1 with
               | some (vs, r2) => some (x :: vs, r2)
               | Option.none => Option.none)
            | ']' :: r1 => some ([x], r1)
            | _ => Option.none) = _
      rw [skipWs_cons_not (by decide)]
      rfl
  | x, y :: ys, fuel, rest, hf => by
    cases fuel with
    | zero => exact absurd hf (Nat.not_lt_zero _)
    | succ f =>
      have hlens : (dumpsItems (x :: y :: ys)).length
          = (dumpsChars x).length + 2 + (dumpsItems (y :: ys)).length := by
        simp [dumpsItems]
        omega
      have hfe : (dumpsChars x).length < f := by omega
      have hfy : (dumpsItems (y :: ys)).length + 1 < f := by omega
      have heq : dumpsItems (x :: y :: ys) ++ ']' :: rest
          = dumpsChars x ++ (',' :: ' ' :: (dumpsItems (y :: ys) ++ ']' :: rest)) := by
        simp [dumpsItems, List.append_assoc]
      rw [heq, parseItems_step, rtValue x f _ hfe (by rfl)]
      show (match skipWs (',' :: ' ' :: (dumpsItems (y :: ys) ++ ']' :: rest)) with
            | ',' :: r1 =>
              (match parseItems f r1 with
               | some (vs, r2) => some (x :: vs, r2)
               | Option.none => Option.none)
            | ']' :: r1 => some ([x], r1)
            | _ => Option.none) = _
      rw [skipWs_cons_not (by decide)]
      show (match parseItems f (' ' :: (dumpsItems (y :: ys) ++ ']' :: rest)) with
            | some (vs, r2) => some (x :: vs, r2)
            | Option.none => Option.none) = _
      rw [parseItems_ws f ' ' _ (by decide), rtItems y ys f rest hfy]
termination_by x xs _ _ _ => sizeOf x + sizeOf xs

theorem rtEntries : ∀ (k : String) (v : PyValue) (kvs : List (String × PyValue))
    (fuel : Nat) (rest : List Char),
    (dumpsEntries ((k, v) :: kvs)).length + 1 < fuel →
    parseEntries fuel (dumpsEntries ((k, v) :: kvs) ++ '\x7d' :: rest)
      = some ((k, v) :: kvs, rest)
  | k, v, [], fuel, rest, hf => by
    cases fuel with
    | zero => exact absurd hf (Nat.not_lt_zero _)
    | succ f =>
      have hlens : (dumpsEntries [(k, v)]).length
          = (quoteChars k).length + 2 + (dumpsChars v).length := by
        simp [dumpsEntries]
        omega
      have hfe : (dumpsChars v).length < f := by omega
      have heq : dumpsEntries [(k, v)] ++ '\x7d' :: rest
          = '"' :: (escBody k.data ++ '"' :: (':' :: ' ' :: (dumpsChars v
              ++ '\x7d' :: rest))) := by
        show (quoteChars k ++ ':' :: ' ' :: dumpsChars v) ++ '\x7d' :: rest = _
        rw [quoteChars]
        simp [List.append_assoc]
      rw [heq, parseEntries_step]
      rw [skipWs_cons_not (by decide)]
      show (match parseStrBody [] (escBody k.data ++ '"' :: (':' :: ' ' :: (dumpsChars v
              ++ '\x7d' :: rest))) with
            | Option.none => Option.none
            | some (k1, r1) =>
              match skipWs r1 with
              | ':' :: r2 =>
                (match parseValue f r2 with
                 | Option.none => Option.none
                 | some (v1, r3) =>
                   match skipWs r3 with
                   | ',' :: r4 =>
                     (match parseEntries f r4 with
                      | some (kvs1, r5) => some ((k1, v1) :: kvs1, r5)
                      | Option.none => Option.none)
                   | '\x7d' :: r4 => some ([(k1, v1)], r4)
                   | _ => Option.none)
              | _ => Option.none) = _
      rw [parseStrBody_run k.data []]
      simp only [List.reverse_nil, List.nil_append]
      show (match skipWs (':' :: ' ' :: (dumpsChars v ++ '\x7d' :: rest)) with
            | ':' :: r2 =>
              (match parseValue f r2 with
               | Option.none => Option.none
               | some (v1, r3) =>
                 match skipWs r3 with
                 | ',' :: r4 =>
                   (match parseEntries f r4 with
                    | some (kvs1, r5) => some ((String.mk k.data, v1) :: kvs1, r5)
                    | Option.none => Option.none)
                 | '\x7d' :: r4 => some ([(String.mk k.data, v1)], r4)
                 | _ => Option.none)
            | _ => Option.none) = _
      rw [skipWs_cons_not (by decide)]
      show (match parseValue f (' ' :: (dumpsChars v ++ '\x7d' :: rest)) with
            | Option.none => Option.none
            | some (v1, r3) =>
              match skipWs r3 with
              | ',' :: r4 =>
                (match parseEntries f r4 with
                 | some (kvs1, r5) => some ((String.mk k.data, v1) :: kvs1, r5)
                 | Option.none => Option.none)
              | '\x7d' :: r4 => some ([(String.mk k.data, v1)], r4)
              | _ => Option.none) = _
      rw [parseValue_ws f ' ' _ (by decide), rtValue v f ('\x7d' :: rest) hfe (by rfl)]
      show (match skipWs ('\x7d' :: rest) with
            | ',' :: r4 =>
              (match parseEntries f r4 with
               | some (kvs1, r5) => some ((String.mk k.data, v) :: kvs1, r5)
               | Option.none => Option.none)
            | '\x7d' :: r4 => some ([(String.mk k.data, v)], r4)
            | _ => Option.none) = _
      rw [skipWs_cons_not (by decide)]
      show some ([(String.mk k.data, v)], rest) = some ([(k, v)], rest)
      simp
  | k, v, (k2, v2) :: kvs, fuel, rest, hf => by
    cases fuel with
    | zero => exact absurd hf (Nat.not_lt_zero _)
    | succ f =>
      have hlens : (dumpsEntries ((k, v) :: (k2, v2) :: kvs)).length
          = (quoteChars k).length + 2 + (dumpsChars v).length + 2
            + (dumpsEntries ((k2, v2) :: kvs)).length := by
        simp [dumpsEntries]
        omega
      have hfe : (dumpsChars v).length < f := by omega
      have hfk : (dumpsEntries ((k2, v2) :: kvs)).length + 1 < f := by omega
      have heq : dumpsEntries ((k, v) :: (k2, v2) :: kvs) ++ '\x7d' :: rest
          = '"' :: (escBody k.data ++ '"' :: (':' :: ' ' :: (dumpsChars v
              ++ ',' :: ' ' :: (dumpsEntries ((k2, v2) :: kvs) ++ '\x7d' :: rest)))) := by
        show (quoteChars k ++ ':' :: ' ' :: dumpsChars v
              ++ ',' :: ' ' :: dumpsEntries ((k2, v2) :: kvs)) ++ '\x7d' :: rest = _
        rw [quoteChars]
        simp [List.append_assoc]
      rw [heq, parseEntries_step]
      rw [skipWs_cons_not (by decide)]
      show (match parseStrBody [] (escBody k.data ++ '"' :: (':' :: ' ' :: (dumpsChars v
              ++ ',' :: ' ' :: (dumpsEntries ((k2, v2) :: kvs) ++ '\x7d' :: rest)))) with
            | Option.none => Option.none
            | some (k1, r1) =>
              match skipWs r1 with
              | ':' :: r2 =>
                (match parseValue f r2 with
                 | Option.none => Option.none
                 | some (v1, r3) =>
                   match skipWs r3 with
                   | ',' :: r4 =>
                     (match parseEntries f r4 with
                      | some (kvs1, r5) => some ((k1, v1) :: kvs1, r5)
                      | Option.none => Option.none)
                   | '\x7d' :: r4 => some ([(k1, v1)], r4)
                   | _ => Option.none)
              | _ => Option.none) = _
      rw [parseStrBody_run k.data []]
      simp only [List.reverse_nil, List.nil_append]
      show (match skipWs (':' :: ' ' :: (dumpsChars v
              ++ ',' :: ' ' :: (dumpsEntries ((k2, v2) :: kvs) ++ '\x7d' :: rest))) with
            | ':' :: r2 =>
              (match parseValue f r2 with
               | Option.none => Option.none
               | some (v1, r3) =>
                 match skipWs r3 with
                 | ',' :: r4 =>
                   (match parseEntries f r4 with
                    | some (kvs1, r5) => some ((String.mk k.data, v1) :: kvs1, r5)
                    | Option.none => Option.none)
                 | '\x7d' :: r4 => some ([(String.mk k.data, v1)], r4)
                 | _ => Option.none)
            | _ => Option.none) = _
      rw [skipWs_cons_not (by decide)]
      show (match parseValue f (' ' :: (dumpsChars v
              ++ ',' :: ' ' :: (dumpsEntries ((k2, v2) :: kvs) ++ '\x7d' :: rest))) with
            | Option.none => Option.none
            | some (v1, r3) =>
              match skipWs r3 with
              | ',' :: r4 =>
                (match parseEntries f r4 with
                 | some (kvs1, r5) => some ((String.mk k.data, v1) :: kvs1, r5)
                 | Option.none => Option.none)
              | '\x7d' :: r4 => some ([(String.mk k.data, v1)], r4)
              | _ => Option.none) = _
      rw [parseValue_ws f ' ' _ (by decide), rtValue v f _ hfe (by rfl)]
      show (match skipWs (',' :: ' ' :: (dumpsEntries ((k2, v2) :: kvs) ++ '\x7d' :: rest)) with
            | ',' :: r4 =>
              (match parseEntries f r4 with
               | some (kvs1, r5) => some ((String.mk k.data, v) :: kvs1, r5)
               | Option.none => Option.none)
            | '\x7d' :: r4 => some ([(String.mk k.data, v)], r4)
            | _ => Option.none) = _
      rw [skipWs_cons_not (by decide)]
      show (match parseEntries f (' ' :: (dumpsEntries ((k2, v2) :: kvs) ++ '\x7d' :: rest)) with
            | some (kvs1, r5) => some ((String.mk k.data, v) :: kvs1, r5)
            | Option.none => Option.none) = _
      rw [parseEntries_ws f ' ' _ (by decide), rtEntries k2 v2 kvs f rest hfk]
termination_by k v kvs _ _ _ => sizeOf v + sizeOf kvs
end

theorem jsonLoads_jsonDumps (v : PyValue) : jsonLoads (jsonDumps v) = some v := by
  have hdata : (jsonDumps v).data = dumpsChars v := rfl
  rw [jsonLoads, hdata]
  have hrt := rtValue v ((dumpsChars v).length + 1) [] (by omega) (by rfl)
  rw [List.append_nil] at hrt
  rw [hrt]
  rfl

/-- C1: the dispatcher result normalization returns a string result
verbatim, byte for byte; every non-string result is returned as its JSON
serialization, with every non-ASCII (and every printable) character
emitted literally rather than escaped, and a standard JSON decoder parses
the returned text back to the original value — including null, booleans,
numbers, lists and mappings. -/
theorem result_normalization_roundtrip :
    (∀ s : String, resultNormalizer (.str s) = s)
    ∧ (∀ v : PyValue, v.isStr = false →
       resultNormalizer v = jsonDumps v ∧ jsonLoads (resultNormalizer v) = some v)
    ∧ (∀ c : Char, 32 ≤ c.toNat → ¬ c = '"' → ¬ c = '\\' → escChar c = [c]) := by
  refine ⟨fun s => rfl, ?_, ?_⟩
  · intro v hv
    have hn : resultNormalizer v = jsonDumps v := by
      cases v with
      | str s => simp [PyValue.isStr] at hv
      | none => rfl
      | bool b => rfl
      | int i => rfl
      | list xs => rfl
      | dict kvs => rfl
    exact ⟨hn, by rw [hn, jsonLoads_jsonDumps]⟩
  · intro c h32 hq hbs
    have h8 : ¬ c = '\x08' := fun h => by subst h; simp at h32
    have hc : ¬ c = '\x0c' := fun h => by subst h; simp at h32
    have hn : ¬ c = '\n' := fun h => by subst h; simp at h32
    have hr : ¬ c = '\r' := fun h => by subst h; simp at h32
    have ht : ¬ c = '\t' := fun h => by subst h; simp at h32
    have hlt : ¬ c.toNat < 32 := by omega
    rw [escChar, if_neg hbs, if_neg hq, if_neg h8, if_neg hc, if_neg hn, if_neg hr,
        if_neg ht, if_neg hlt]

/-- C1 witness: normalization evaluated at concrete results — a native
string passes through without quotes, a mapping serializes to JSON text
that decodes back to it, and a non-ASCII character is kept literal. -/
theorem result_normalization_roundtrip_witness :
    resultNormalizer (.str "Hello World") = "Hello World"
    ∧ jsonLoads (resultNormalizer (.dict [("k", .int 1)])) = some (.dict [("k", .int 1)])
    ∧ escChar '好' = ['好'] :=
  ⟨result_normalization_roundtrip.1 "Hello World",
   (result_normalization_roundtrip.2.1 (.dict [("k", .int 1)]) rfl).2,
   result_normalization_roundtrip.2.2 '好' (by decide) (by decide) (by decide)⟩
